import Mathlib

/-!
Verification development for the spectral-gap pipeline of
`src/verify_q3_gap.py`: the Archimedean density `a_xi`, the Fejér × heat
window `w_window`, the truncated periodization `P_A_symbol`, and the grid
scan `run_gap_visualization`.  Machine floats are modelled by exact real
numbers; the special-function primitive `scipy.special.digamma` is modelled
by the digamma function, defined through its standard series expansion.
-/

open Real Filter Topology

noncomputable section

/-- Series term of the digamma expansion: `1/(n+1) - 1/(n+z)`. -/
def cTerm (z : ℂ) (n : ℕ) : ℂ := ((n : ℂ) + 1)⁻¹ - ((n : ℂ) + z)⁻¹

/-- Model of the external special-function primitive `scipy.special.digamma`:
the digamma function `ψ(z) = -γ + ∑_{n ≥ 0} (1/(n+1) - 1/(n+z))`. -/
def digamma (z : ℂ) : ℂ :=
  -(Real.eulerMascheroniConstant : ℂ) + tsum (fun n : ℕ => cTerm z n)

/-- Constant `B_MIN` from the source (line 18): bandwidth `B = 3.0`. -/
def B_MIN : ℝ := 3

/-- Constant `T_SYM` from the source (line 19): smoothing time `t = 0.06`. -/
def T_SYM : ℝ := 0.06

/-- Constant `C_STAR` from the source (line 20): the Archimedean floor `1.1`. -/
def C_STAR : ℝ := 1.1

/-- Function a_xi from the source (lines 28-31): Archimedean density
`a(ξ) = log(π) - Re(ψ(1/4 + iπξ))`. -/
def a_xi (xi : ℝ) : ℝ :=
  Real.log π - (digamma (1 / 4 + (π * xi : ℝ) * Complex.I)).re

/-- Function w_window from the source (lines 33-37): Fejér × heat window
`max(0, 1 - |ξ|/B) * exp(-4π²tξ²)`, with the source's default parameters. -/
def w_window (xi : ℝ) (B : ℝ := B_MIN) (t : ℝ := T_SYM) : ℝ :=
  max 0 (1 - |xi| / B) * Real.exp (-4 * π ^ 2 * t * xi ^ 2)

/-- One term of the periodization loop body (source line 44):
`a_xi(θ+m) * w_window(θ+m)`. -/
def P_term (B t theta : ℝ) (m : ℤ) : ℝ :=
  a_xi (theta + (m : ℝ)) * w_window (theta + (m : ℝ)) B t

/-- Function P_A_symbol from the source (lines 39-45): the truncated Toeplitz symbol
`2π · Σ_{m=-M}^{M} a(θ+m)·w(θ+m)`, accumulated exactly as the Python loop
does: a left fold over the ascending list `m = -M, -M+1, …, M`. -/
def P_A_symbol (theta : ℝ) (num_terms : ℕ := 50) (B : ℝ := B_MIN)
    (t : ℝ := T_SYM) : ℝ :=
  2 * π *
    (((List.range (2 * num_terms + 1)).map
        (fun i : ℕ => (i : ℤ) - (num_terms : ℤ))).foldl
      (fun total m => total + P_term B t theta m) 0)

/-- Model of `np.linspace a b n`: `n` evenly spaced points from `a` to `b`
with inclusive endpoints (`n = 1` gives `[a]`, as numpy does). -/
def linspace (a b : ℝ) (n : ℕ) : List ℝ :=
  (List.range n).map (fun i : ℕ => a + (i : ℝ) * ((b - a) / ((n : ℝ) - 1)))

/-- Total core of `np.min` on a list of reals.  It is only ever applied
under a nonemptiness guard (`N ≥ 1`); on the empty list, where numpy raises
`ValueError`, the error path is modeled by `npMinE` below. -/
def npMin : List ℝ → ℝ
  | [] => 0
  | x :: xs => xs.foldl min x

/-- Model of `np.min` with its error path: on an empty array `np.min`
raises `ValueError` (modeled as `none`); otherwise it returns the
minimum. -/
def npMinE (l : List ℝ) : Option ℝ :=
  if l.isEmpty then none else some (npMin l)

/-- Scanning loop of `np.argmin`: keeps the first index attaining the running
minimum, replacing the incumbent only on a strictly smaller value. -/
def npArgminGo (best : ℝ) (bestIdx cur : ℕ) : List ℝ → ℕ
  | [] => bestIdx
  | v :: vs =>
    if v < best then npArgminGo v cur (cur + 1) vs
    else npArgminGo best bestIdx (cur + 1) vs

/-- Model of `np.argmin` on a list of reals: index of the first occurrence of
the minimum (junk value `0` on the empty list). -/
def npArgmin : List ℝ → ℕ
  | [] => 0
  | x :: xs => npArgminGo x 0 1 xs

/-- Result record of the gap scan: the quantities computed by
`run_gap_visualization` (source lines 58-66) before any plotting. -/
structure GapResult where
  thetas : List ℝ
  symbol_values : List ℝ
  min_symbol : ℝ
  theta_min : ℝ
  actual_gap : ℝ

/-- Computational core of `run_gap_visualization` (source lines 48-66, with
the source's constants `N_THETA = 2000`, `num_terms = 50`, `B = 3`,
`t = 0.06` as defaults): sample the symbol on a uniform inclusive grid over
`[-0.5, 0.5]`, take `np.min` and `np.argmin`, and form the margin against
`C_STAR`.  Plotting and console output are presentation-only and omitted. -/
def run_gap_visualization (N_THETA : ℕ := 2000) (num_terms : ℕ := 50)
    (B : ℝ := B_MIN) (t : ℝ := T_SYM) : GapResult :=
  let thetas := linspace (-0.5) 0.5 N_THETA
  let symbol_values := thetas.map (fun th => P_A_symbol th num_terms B t)
  let min_symbol := npMin symbol_values
  let min_idx := npArgmin symbol_values
  { thetas := thetas
    symbol_values := symbol_values
    min_symbol := min_symbol
    theta_min := thetas.getD min_idx 0
    actual_gap := min_symbol - C_STAR }

/-- The gap scan with the source's one failure path made explicit: the run
computes the value list and then calls `np.min`, which raises `ValueError`
when the list is empty (`N = 0`); everything after that point — the
minimum, the argmin lookup, the margin — happens only if `np.min`
succeeded.  No parameter is inspected before the computation. -/
def run_gap_visualizationE (N_THETA : ℕ := 2000) (num_terms : ℕ := 50)
    (B : ℝ := B_MIN) (t : ℝ := T_SYM) : Option GapResult :=
  (npMinE ((linspace (-0.5) 0.5 N_THETA).map
      (fun th => P_A_symbol th num_terms B t))).map
    (fun mn =>
      { thetas := linspace (-0.5) 0.5 N_THETA
        symbol_values := (linspace (-0.5) 0.5 N_THETA).map
          (fun th => P_A_symbol th num_terms B t)
        min_symbol := mn
        theta_min := (linspace (-0.5) 0.5 N_THETA).getD
          (npArgmin ((linspace (-0.5) 0.5 N_THETA).map
            (fun th => P_A_symbol th num_terms B t))) 0
        actual_gap := mn - C_STAR })

/-! ## Series decomposition of the digamma real part

For `z = 1/4 + iy` the real part of the digamma series term splits as
`uTerm n + vTerm y n`, where `uTerm` is the (`y`-independent, nonpositive)
value at `y = 0` and `vTerm` is a nonnegative correction increasing in `y²`.
These decompositions drive all numeric bounds on `a_xi`. -/

/-- Value of the real part of the digamma series term at `y = 0`. -/
def uTerm (n : ℕ) : ℝ := ((n : ℝ) + 1)⁻¹ - ((n : ℝ) + 1 / 4)⁻¹

/-- Nonnegative correction to the real part for general `y`. -/
def vTerm (y : ℝ) (n : ℕ) : ℝ :=
  y ^ 2 / (((n : ℝ) + 1 / 4) * (((n : ℝ) + 1 / 4) ^ 2 + y ^ 2))

/-- Rational comparison point for `vTerm`: `vTerm y n` with `y²` replaced
by `s`. -/
def vBound (s : ℝ) (n : ℕ) : ℝ :=
  s / (((n : ℝ) + 1 / 4) * (((n : ℝ) + 1 / 4) ^ 2 + s))

/-- Sum of the `uTerm` series; equals `ψ(1/4) + γ`. -/
def Usum : ℝ := tsum (fun n : ℕ => uTerm n)

/-- Sum of the `vTerm` series at height `y`. -/
def Vsum (y : ℝ) : ℝ := tsum (fun n : ℕ => vTerm y n)

/-! ## Elementary window facts -/

lemma w_window_nonneg (xi B t : ℝ) : 0 ≤ w_window xi B t := by
  unfold w_window
  have h1 : (0:ℝ) ≤ max 0 (1 - |xi| / B) := le_max_left _ _
  positivity

lemma w_window_le_one (xi B t : ℝ) (hB : 0 < B) (ht : 0 < t) :
    w_window xi B t ≤ 1 := by
  unfold w_window
  have h1 : max 0 (1 - |xi| / B) ≤ 1 := by
    have : (1:ℝ) - |xi| / B ≤ 1 := by
      have : 0 ≤ |xi| / B := by positivity
      linarith
    simp [this]
  have h2 : Real.exp (-4 * π ^ 2 * t * xi ^ 2) ≤ 1 := by
    rw [Real.exp_le_one_iff]
    have : (0:ℝ) ≤ 4 * π ^ 2 * t * xi ^ 2 := by positivity
    linarith
  have h0 : (0:ℝ) ≤ max 0 (1 - |xi| / B) := le_max_left _ _
  calc max 0 (1 - |xi| / B) * Real.exp (-4 * π ^ 2 * t * xi ^ 2)
      ≤ 1 * 1 := by
        apply mul_le_mul h1 h2 (Real.exp_pos _).le (by norm_num)
    _ = 1 := by ring

lemma w_window_eq_zero (xi B t : ℝ) (hB : 0 < B) (h : B ≤ |xi|) :
    w_window xi B t = 0 := by
  unfold w_window
  have : max 0 (1 - |xi| / B) = 0 := by
    apply max_eq_left
    rw [sub_nonpos, le_div_iff hB, one_mul]
    exact h
  rw [this, zero_mul]

lemma w_window_at_zero (B t : ℝ) : w_window 0 B t = 1 := by
  unfold w_window
  simp

/-! ## Elementary series-term facts -/

lemma uTerm_eq (n : ℕ) :
    uTerm n = -(3 / 4) / (((n : ℝ) + 1) * ((n : ℝ) + 1 / 4)) := by
  have h1 : ((n : ℝ) + 1) ≠ 0 := by positivity
  have h2 : ((n : ℝ) + 1 / 4) ≠ 0 := by positivity
  field_simp [uTerm]
  ring

lemma uTerm_nonpos (n : ℕ) : uTerm n ≤ 0 := by
  rw [uTerm_eq]
  have h1 : (0:ℝ) < ((n : ℝ) + 1) * ((n : ℝ) + 1 / 4) := by positivity
  exact div_nonpos_of_nonpos_of_nonneg (by norm_num) h1.le

lemma vTerm_nonneg (y : ℝ) (n : ℕ) : 0 ≤ vTerm y n := by
  unfold vTerm
  positivity

lemma vTerm_zero (n : ℕ) : vTerm 0 n = 0 := by
  simp [vTerm]

lemma vTerm_le_vBound {y s : ℝ} (h : y ^ 2 ≤ s) (n : ℕ) :
    vTerm y n ≤ vBound s n := by
  unfold vTerm vBound
  set c : ℝ := (n : ℝ) + 1 / 4 with hc
  have hcpos : 0 < c := by rw [hc]; positivity
  have hy : (0:ℝ) ≤ y ^ 2 := sq_nonneg y
  have hs : (0:ℝ) ≤ s := hy.trans h
  have hd1 : 0 < c * (c ^ 2 + y ^ 2) := by positivity
  have hd2 : 0 < c * (c ^ 2 + s) :=
    mul_pos hcpos (add_pos_of_pos_of_nonneg (by positivity) hs)
  rw [div_le_div_iff hd1 hd2]
  have key : 0 ≤ c ^ 3 * (s - y ^ 2) :=
    mul_nonneg (pow_nonneg hcpos.le 3) (sub_nonneg.mpr h)
  nlinarith [key]

lemma vBound_le_vTerm {y s : ℝ} (hs : 0 ≤ s) (h : s ≤ y ^ 2) (n : ℕ) :
    vBound s n ≤ vTerm y n := by
  unfold vTerm vBound
  set c : ℝ := (n : ℝ) + 1 / 4 with hc
  have hcpos : 0 < c := by rw [hc]; positivity
  have hy : (0:ℝ) ≤ y ^ 2 := sq_nonneg y
  have hd1 : 0 < c * (c ^ 2 + s) :=
    mul_pos hcpos (add_pos_of_pos_of_nonneg (by positivity) hs)
  have hd2 : 0 < c * (c ^ 2 + y ^ 2) := by positivity
  rw [div_le_div_iff hd1 hd2]
  have key : 0 ≤ c ^ 3 * (y ^ 2 - s) :=
    mul_nonneg (pow_nonneg hcpos.le 3) (sub_nonneg.mpr h)
  nlinarith [key]

/-! ## Summability -/

lemma summable_inv_sq_shift : Summable (fun n : ℕ => (((n : ℝ) + 1) ^ 2)⁻¹) := by
  have h : Summable (fun n : ℕ => 1 / (n : ℝ) ^ 2) :=
    (Real.summable_one_div_nat_pow (p := 2)).mpr (by norm_num)
  have h2 := (summable_nat_add_iff (f := fun n : ℕ => 1 / (n : ℝ) ^ 2) 1).mpr h
  refine h2.congr fun n => ?_
  push_cast
  rw [one_div]

lemma summable_uTerm : Summable uTerm := by
  rw [← summable_abs_iff]
  refine Summable.of_nonneg_of_le (fun n => abs_nonneg _) (fun n => ?_)
    (summable_inv_sq_shift.mul_left 3)
  rw [uTerm_eq, abs_div, abs_neg]
  have h1 : (0:ℝ) < (n : ℝ) + 1 := by positivity
  have h2 : (0:ℝ) < (n : ℝ) + 1 / 4 := by positivity
  rw [abs_of_pos (by positivity : (0:ℝ) < ((n : ℝ) + 1) * ((n : ℝ) + 1 / 4)),
    abs_of_pos (by norm_num : (0:ℝ) < (3:ℝ) / 4)]
  rw [div_le_iff (by positivity)]
  have hq : ((n : ℝ) + 1) / 4 ≤ (n : ℝ) + 1 / 4 := by linarith [Nat.cast_nonneg (α := ℝ) n]
  calc (3:ℝ) / 4 = 3 * (((n : ℝ) + 1) ^ 2)⁻¹ * (((n : ℝ) + 1) * (((n : ℝ) + 1) / 4)) := by
        field_simp
        ring
    _ ≤ 3 * (((n : ℝ) + 1) ^ 2)⁻¹ * (((n : ℝ) + 1) * ((n : ℝ) + 1 / 4)) := by
        have hp : (0:ℝ) ≤ 3 * (((n : ℝ) + 1) ^ 2)⁻¹ * ((n : ℝ) + 1) := by positivity
        nlinarith

/-- Cubic lower bound for the `vTerm` denominator. -/
lemma vTerm_le_cube (y : ℝ) (n : ℕ) :
    vTerm y n ≤ y ^ 2 / (((n : ℝ) + 1 / 4) ^ 3) := by
  unfold vTerm
  set c : ℝ := (n : ℝ) + 1 / 4 with hc
  have hcpos : 0 < c := by rw [hc]; positivity
  have hE : (0:ℝ) < c ^ 3 := by positivity
  have hED : c ^ 3 ≤ c * (c ^ 2 + y ^ 2) := by nlinarith [sq_nonneg y]
  exact div_le_div_of_nonneg_left (sq_nonneg y) hE hED

lemma summable_vTerm (y : ℝ) : Summable (vTerm y) := by
  refine Summable.of_nonneg_of_le (vTerm_nonneg y) (fun n => ?_)
    (summable_inv_sq_shift.mul_left (64 * y ^ 2))
  refine (vTerm_le_cube y n).trans ?_
  set c : ℝ := (n : ℝ) + 1 / 4 with hc
  have hn1 : (0:ℝ) < (n : ℝ) + 1 := by positivity
  have hq : ((n : ℝ) + 1) / 4 ≤ c := by
    rw [hc]; linarith [Nat.cast_nonneg (α := ℝ) n]
  have hE : (0:ℝ) < ((n : ℝ) + 1) ^ 3 / 64 := by positivity
  have hED : ((n : ℝ) + 1) ^ 3 / 64 ≤ c ^ 3 := by
    calc ((n : ℝ) + 1) ^ 3 / 64 = (((n : ℝ) + 1) / 4) ^ 3 := by ring
      _ ≤ c ^ 3 := by
          have h0 : (0:ℝ) ≤ ((n : ℝ) + 1) / 4 := by positivity
          exact pow_le_pow_left h0 hq 3
  calc y ^ 2 / c ^ 3 ≤ y ^ 2 / (((n : ℝ) + 1) ^ 3 / 64) :=
        div_le_div_of_nonneg_left (sq_nonneg y) hE hED
    _ = 64 * y ^ 2 / ((n : ℝ) + 1) ^ 3 := by
        field_simp
        ring
    _ ≤ 64 * y ^ 2 * (((n : ℝ) + 1) ^ 2)⁻¹ := by
        rw [div_eq_mul_inv]
        have h2 : (0:ℝ) < ((n : ℝ) + 1) ^ 2 := by positivity
        have h3 : ((n : ℝ) + 1) ^ 2 ≤ ((n : ℝ) + 1) ^ 3 := by
          nlinarith [sq_nonneg ((n : ℝ) + 1)]
        have := inv_le_inv_of_le h2 h3
        have h4 : (0:ℝ) ≤ 64 * y ^ 2 := by positivity
        exact mul_le_mul_of_nonneg_left this h4

lemma summable_imTerm (y : ℝ) :
    Summable (fun n : ℕ => y / (((n : ℝ) + 1 / 4) ^ 2 + y ^ 2)) := by
  refine Summable.of_norm_bounded (fun n => 16 * |y| * (((n : ℝ) + 1) ^ 2)⁻¹)
    (summable_inv_sq_shift.mul_left (16 * |y|)) (fun n => ?_)
  set c : ℝ := (n : ℝ) + 1 / 4 with hc
  have hcpos : 0 < c := by rw [hc]; positivity
  have hq : ((n : ℝ) + 1) / 4 ≤ c := by
    rw [hc]; linarith [Nat.cast_nonneg (α := ℝ) n]
  have hn1 : (0:ℝ) < (n : ℝ) + 1 := by positivity
  have hden : ((n : ℝ) + 1) ^ 2 / 16 ≤ c ^ 2 + y ^ 2 := by
    have : (((n : ℝ) + 1) / 4) ^ 2 ≤ c ^ 2 :=
      pow_le_pow_left (by positivity) hq 2
    nlinarith [sq_nonneg y]
  have hpos : (0:ℝ) < c ^ 2 + y ^ 2 := by positivity
  rw [Real.norm_eq_abs, abs_div, abs_of_pos hpos]
  calc |y| / (c ^ 2 + y ^ 2) ≤ |y| / (((n : ℝ) + 1) ^ 2 / 16) :=
        div_le_div_of_nonneg_left (abs_nonneg y) (by positivity) hden
    _ = 16 * |y| * (((n : ℝ) + 1) ^ 2)⁻¹ := by
        field_simp
        ring

/-! ## Telescoping sums -/

lemma hasSum_telescope_inv (a : ℝ) (ha : 0 < a) :
    HasSum (fun n : ℕ => (((n : ℝ) + a) * ((n : ℝ) + a + 1))⁻¹) a⁻¹ := by
  have hnonneg : ∀ n : ℕ, 0 ≤ (((n : ℝ) + a) * ((n : ℝ) + a + 1))⁻¹ := by
    intro n
    have h1 : (0:ℝ) < (n : ℝ) + a := by positivity
    have h2 : (0:ℝ) < (n : ℝ) + a + 1 := by positivity
    positivity
  rw [hasSum_iff_tendsto_nat_of_nonneg hnonneg]
  have hpart : ∀ n : ℕ,
      ∑ i in Finset.range n, (((i : ℝ) + a) * ((i : ℝ) + a + 1))⁻¹
        = a⁻¹ - ((n : ℝ) + a)⁻¹ := by
    intro n
    have htel := Finset.sum_range_sub' (f := fun i : ℕ => ((i : ℝ) + a)⁻¹) n
    have hcongr : ∑ i in Finset.range n, (((i : ℝ) + a) * ((i : ℝ) + a + 1))⁻¹
        = ∑ i in Finset.range n,
            ((((i : ℝ) + a))⁻¹ - (((i + 1 : ℕ) : ℝ) + a)⁻¹) := by
      apply Finset.sum_congr rfl
      intro i _
      have h1 : ((i : ℝ) + a) ≠ 0 := by positivity
      have h2 : ((i : ℝ) + 1 + a) ≠ 0 := by positivity
      push_cast
      rw [inv_sub_inv h1 h2,
        show ((i : ℝ) + 1 + a) - ((i : ℝ) + a) = 1 by ring, one_div,
        show ((i : ℝ) + a) * ((i : ℝ) + 1 + a)
          = ((i : ℝ) + a) * ((i : ℝ) + a + 1) by ring]
    rw [hcongr, htel]
    norm_num
  simp only [hpart]
  have hz : Tendsto (fun n : ℕ => ((n : ℝ) + a)⁻¹) atTop (𝓝 0) := by
    apply Tendsto.inv_tendsto_atTop
    exact tendsto_atTop_add_const_right atTop a tendsto_natCast_atTop_atTop
  have hc : Tendsto (fun _ : ℕ => a⁻¹) atTop (𝓝 a⁻¹) := tendsto_const_nhds
  have := hc.sub hz
  simpa using this

lemma summable_telescope_inv (a : ℝ) (ha : 0 < a) :
    Summable (fun n : ℕ => (((n : ℝ) + a) * ((n : ℝ) + a + 1))⁻¹) :=
  (hasSum_telescope_inv a ha).summable

lemma tsum_telescope_inv (a : ℝ) (ha : 0 < a) :
    tsum (fun n : ℕ => (((n : ℝ) + a) * ((n : ℝ) + a + 1))⁻¹) = a⁻¹ :=
  (hasSum_telescope_inv a ha).tsum_eq

/-! ## Real part of the digamma function on the line `Re z = 1/4` -/

lemma cTerm_re (y : ℝ) (n : ℕ) :
    (cTerm (1 / 4 + (y : ℂ) * Complex.I) n).re = uTerm n + vTerm y n := by
  have hre : ((n : ℂ) + (1 / 4 + (y : ℂ) * Complex.I)).re = (n : ℝ) + 1 / 4 := by
    simp
  have him : ((n : ℂ) + (1 / 4 + (y : ℂ) * Complex.I)).im = y := by
    simp
  have h1 : (((n : ℂ) + 1)⁻¹).re = ((n : ℝ) + 1)⁻¹ := by
    have : ((n : ℂ) + 1) = (((n : ℝ) + 1 : ℝ) : ℂ) := by push_cast; ring
    rw [this, ← Complex.ofReal_inv, Complex.ofReal_re]
  have h2 : ((((n : ℂ) + (1 / 4 + (y : ℂ) * Complex.I)))⁻¹).re
      = ((n : ℝ) + 1 / 4) / (((n : ℝ) + 1 / 4) ^ 2 + y ^ 2) := by
    rw [Complex.inv_re, Complex.normSq_apply, hre, him]
    ring_nf
  rw [cTerm, Complex.sub_re, h1, h2]
  set c : ℝ := (n : ℝ) + 1 / 4 with hc
  have hcpos : 0 < c := by rw [hc]; positivity
  have hn1 : ((n : ℝ) + 1) ≠ 0 := by positivity
  have hden : c ^ 2 + y ^ 2 ≠ 0 := by positivity
  rw [uTerm, vTerm, ← hc]
  field_simp
  ring

lemma cTerm_im (y : ℝ) (n : ℕ) :
    (cTerm (1 / 4 + (y : ℂ) * Complex.I) n).im
      = y / (((n : ℝ) + 1 / 4) ^ 2 + y ^ 2) := by
  have hre : ((n : ℂ) + (1 / 4 + (y : ℂ) * Complex.I)).re = (n : ℝ) + 1 / 4 := by
    simp
  have him : ((n : ℂ) + (1 / 4 + (y : ℂ) * Complex.I)).im = y := by
    simp
  have h1 : (((n : ℂ) + 1)⁻¹).im = 0 := by
    have : ((n : ℂ) + 1) = (((n : ℝ) + 1 : ℝ) : ℂ) := by push_cast; ring
    rw [this, ← Complex.ofReal_inv, Complex.ofReal_im]
  rw [cTerm, Complex.sub_im, h1, Complex.inv_im, Complex.normSq_apply, hre, him]
  ring_nf

lemma summable_cTerm (y : ℝ) :
    Summable (cTerm (1 / 4 + (y : ℂ) * Complex.I)) := by
  have base : Summable (fun n : ℕ => (Complex.ofReal (uTerm n + vTerm y n)
      + Complex.ofReal (y / (((n : ℝ) + 1 / 4) ^ 2 + y ^ 2)) * Complex.I)) := by
    apply Summable.add
    · rw [Complex.summable_ofReal]
      exact summable_uTerm.add (summable_vTerm y)
    · apply Summable.mul_right
      rw [Complex.summable_ofReal]
      exact summable_imTerm y
  refine base.congr fun n => ?_
  apply Complex.ext
  · rw [cTerm_re]
    simp only [Complex.add_re, Complex.ofReal_re, Complex.mul_I_re,
      Complex.ofReal_im, neg_zero, add_zero]
  · rw [cTerm_im]
    simp only [Complex.add_im, Complex.ofReal_im, Complex.mul_I_im,
      Complex.ofReal_re, zero_add]

lemma re_digamma (y : ℝ) :
    (digamma (1 / 4 + (y : ℂ) * Complex.I)).re
      = -Real.eulerMascheroniConstant + Usum + Vsum y := by
  rw [digamma, Complex.add_re, Complex.neg_re, Complex.ofReal_re,
    Complex.re_tsum (summable_cTerm y)]
  have : tsum (fun n : ℕ => (cTerm (1 / 4 + (y : ℂ) * Complex.I) n).re)
      = tsum (fun n : ℕ => (uTerm n + vTerm y n)) := by
    apply tsum_congr
    exact cTerm_re y
  rw [this, tsum_add summable_uTerm (summable_vTerm y), Usum, Vsum]
  ring

/-- Closed form for the density in terms of the series sums:
`a(ξ) = log π + γ - Usum - Vsum(πξ)`. -/
lemma a_xi_eq (xi : ℝ) :
    a_xi xi = Real.log π + Real.eulerMascheroniConstant - Usum - Vsum (π * xi) := by
  rw [a_xi, re_digamma (π * xi)]
  ring

/-! ## Bounds on the series sums -/

lemma Usum_le_partial (k : ℕ) : Usum ≤ ∑ n in Finset.range k, uTerm n := by
  have hsplit := sum_add_tsum_nat_add k summable_uTerm
  have htail : tsum (fun n : ℕ => uTerm (n + k)) ≤ 0 :=
    tsum_nonpos (fun n => uTerm_nonpos _)
  rw [Usum, ← hsplit]
  linarith

lemma partial_le_Vsum (y : ℝ) (k : ℕ) :
    ∑ n in Finset.range k, vTerm y n ≤ Vsum y := by
  have hsplit := sum_add_tsum_nat_add k (summable_vTerm y)
  have htail : 0 ≤ tsum (fun n : ℕ => vTerm y (n + k)) :=
    tsum_nonneg (fun n => vTerm_nonneg _ _)
  rw [Vsum, ← hsplit]
  linarith

lemma Vsum_nonneg (y : ℝ) : 0 ≤ Vsum y :=
  tsum_nonneg (fun n => vTerm_nonneg y n)

lemma Vsum_zero : Vsum 0 = 0 := by
  rw [Vsum]
  simp [vTerm_zero]

lemma Usum_le_neg_three : Usum ≤ -3 := by
  have h := Usum_le_partial 1
  have : ∑ n in Finset.range 1, uTerm n = -3 := by
    rw [Finset.sum_range_one, uTerm]
    norm_num
  linarith

lemma neg_Usum_bound : -(15 / 4) ≤ Usum := by
  have hsplit := sum_add_tsum_nat_add 1 summable_uTerm
  have hone : ∑ n in Finset.range 1, uTerm n = -3 := by
    rw [Finset.sum_range_one, uTerm]
    norm_num
  have hcmp : ∀ n : ℕ,
      -(3 / 4) * (((n : ℝ) + 1) * ((n : ℝ) + 1 + 1))⁻¹ ≤ uTerm (n + 1) := by
    intro n
    rw [uTerm_eq]
    push_cast
    have h1 : (0:ℝ) < ((n : ℝ) + 1) * ((n : ℝ) + 1 + 1) := by positivity
    have hd : ((n : ℝ) + 1) * ((n : ℝ) + 1 + 1)
        ≤ ((n : ℝ) + 1 + 1) * ((n : ℝ) + 1 + 1 / 4) := by
      nlinarith [Nat.cast_nonneg (α := ℝ) n]
    have h34 := div_le_div_of_nonneg_left (by norm_num : (0:ℝ) ≤ 3 / 4) h1 hd
    have e1 : (3:ℝ) / 4 * (((n : ℝ) + 1) * ((n : ℝ) + 1 + 1))⁻¹
        = 3 / 4 / (((n : ℝ) + 1) * ((n : ℝ) + 1 + 1)) := (div_eq_mul_inv _ _).symm
    rw [neg_mul, e1, neg_div]
    exact neg_le_neg h34
  have hsum1 : Summable (fun n : ℕ =>
      -(3 / 4) * (((n : ℝ) + 1) * ((n : ℝ) + 1 + 1))⁻¹) :=
    (summable_telescope_inv 1 one_pos).mul_left _
  have hsum2 : Summable (fun n : ℕ => uTerm (n + 1)) :=
    (summable_nat_add_iff (f := uTerm) 1).mpr summable_uTerm
  have htail : -(3 / 4) ≤ tsum (fun n : ℕ => uTerm (n + 1)) := by
    have h := tsum_le_tsum hcmp hsum1 hsum2
    have hval : tsum (fun n : ℕ =>
          -(3 / 4) * (((n : ℝ) + 1) * ((n : ℝ) + 1 + 1))⁻¹)
        = -(3 / 4) := by
      rw [tsum_mul_left, tsum_telescope_inv 1 one_pos]
      norm_num
    linarith [hval ▸ h]
  rw [Usum, ← hsplit, hone]
  linarith

/-- Tail-controlled upper bound: the sum of the `vTerm` series is at most any
partial sum plus `y²/(k(k-1))`. -/
lemma Vsum_le_partial_add_tail (y : ℝ) (k : ℕ) (hk : 2 ≤ k) :
    Vsum y ≤ (∑ n in Finset.range k, vTerm y n)
      + y ^ 2 / ((k : ℝ) * ((k : ℝ) - 1)) := by
  have hk1 : (1:ℝ) ≤ (k : ℝ) - 1 := by
    have : (2:ℝ) ≤ (k : ℝ) := by exact_mod_cast hk
    linarith
  have hkpos : (0:ℝ) < (k : ℝ) := by linarith
  have hsplit := sum_add_tsum_nat_add k (summable_vTerm y)
  have hcmp : ∀ n : ℕ, vTerm y (n + k)
      ≤ (y ^ 2 / (k : ℝ))
        * (((n : ℝ) + ((k : ℝ) - 1)) * (((n : ℝ) + ((k : ℝ) - 1)) + 1))⁻¹ := by
    intro n
    refine (vTerm_le_cube y (n + k)).trans ?_
    have hm : (((n + k : ℕ) : ℝ)) = (n : ℝ) + (k : ℝ) := by push_cast; ring
    have hden1 : (0:ℝ) < ((n : ℝ) + ((k : ℝ) - 1)) * (((n : ℝ) + ((k : ℝ) - 1)) + 1) := by
      nlinarith [Nat.cast_nonneg (α := ℝ) n]
    have hden2 : (0:ℝ) < (k : ℝ) * (((n : ℝ) + ((k : ℝ) - 1)) * (((n : ℝ) + ((k : ℝ) - 1)) + 1)) := by
      positivity
    have hcube : (k : ℝ) * (((n : ℝ) + ((k : ℝ) - 1)) * (((n : ℝ) + ((k : ℝ) - 1)) + 1))
        ≤ (((n + k : ℕ) : ℝ) + 1 / 4) ^ 3 := by
      rw [hm]
      nlinarith [Nat.cast_nonneg (α := ℝ) n, sq_nonneg ((n : ℝ) + (k : ℝ))]
    calc y ^ 2 / ((((n + k : ℕ) : ℝ) + 1 / 4) ^ 3)
        ≤ y ^ 2 / ((k : ℝ) * (((n : ℝ) + ((k : ℝ) - 1)) * (((n : ℝ) + ((k : ℝ) - 1)) + 1))) :=
          div_le_div_of_nonneg_left (sq_nonneg y) hden2 hcube
      _ = (y ^ 2 / (k : ℝ))
            * (((n : ℝ) + ((k : ℝ) - 1)) * (((n : ℝ) + ((k : ℝ) - 1)) + 1))⁻¹ := by
          rw [div_mul_eq_div_div_swap, ← div_eq_mul_inv, div_right_comm]
  have hsum1 : Summable (fun n : ℕ => vTerm y (n + k)) :=
    (summable_nat_add_iff (f := vTerm y) k).mpr (summable_vTerm y)
  have hsum2 : Summable (fun n : ℕ =>
      (y ^ 2 / (k : ℝ))
        * (((n : ℝ) + ((k : ℝ) - 1)) * (((n : ℝ) + ((k : ℝ) - 1)) + 1))⁻¹) :=
    (summable_telescope_inv ((k : ℝ) - 1) (by linarith)).mul_left _
  have htail : tsum (fun n : ℕ => vTerm y (n + k))
      ≤ y ^ 2 / ((k : ℝ) * ((k : ℝ) - 1)) := by
    have h := tsum_le_tsum hcmp hsum1 hsum2
    have hval : tsum (fun n : ℕ => (y ^ 2 / (k : ℝ))
        * (((n : ℝ) + ((k : ℝ) - 1)) * (((n : ℝ) + ((k : ℝ) - 1)) + 1))⁻¹)
        = y ^ 2 / ((k : ℝ) * ((k : ℝ) - 1)) := by
      rw [tsum_mul_left, tsum_telescope_inv ((k : ℝ) - 1) (by linarith)]
      field_simp
    linarith [hval ▸ h]
  rw [Vsum, ← hsplit]
  linarith

/-- Crude global polynomial bound on the `vTerm` series. -/
lemma Vsum_le_poly (y : ℝ) : Vsum y ≤ 4 + 2 * y ^ 2 := by
  have h := Vsum_le_partial_add_tail y 2 (le_refl 2)
  have h0 : vTerm y 0 ≤ 4 := by
    unfold vTerm
    have hpos : (0:ℝ) < ((0 : ℕ) : ℝ) + 1 / 4 := by norm_num
    rw [div_le_iff (by positivity)]
    push_cast
    nlinarith [sq_nonneg y]
  have h1 : vTerm y 1 ≤ y ^ 2 := by
    refine (vTerm_le_cube y 1).trans ?_
    have : (0:ℝ) < (((1 : ℕ) : ℝ) + 1 / 4) ^ 3 := by positivity
    rw [div_le_iff this]
    push_cast
    nlinarith [sq_nonneg y]
  have hsum : ∑ n in Finset.range 2, vTerm y n = vTerm y 0 + vTerm y 1 := by
    rw [Finset.sum_range_succ, Finset.sum_range_one]
  rw [hsum] at h
  norm_num at h
  nlinarith [sq_nonneg y]

/-! ## Numeric bounds on `log π` and on specific density values -/

lemma one_lt_log_pi : 1 < Real.log π := by
  rw [Real.lt_log_iff_exp_lt Real.pi_pos]
  calc Real.exp 1 < 2.7182818286 := Real.exp_one_lt_d9
    _ < 3.141592 := by norm_num
    _ < π := Real.pi_gt_d6

lemma log_pi_lt : Real.log π < 1.145 := by
  rw [Real.log_lt_iff_lt_exp Real.pi_pos]
  have hexp := Real.sum_le_exp_of_nonneg (by norm_num : (0:ℝ) ≤ 1.145) 7
  have hsum : (3.141593 : ℝ) ≤ ∑ i in Finset.range 7, (1.145 : ℝ) ^ i / i.factorial := by
    simp only [Finset.sum_range_succ, Finset.sum_range_zero, Nat.factorial]
    norm_num
  calc π < 3.141593 := Real.pi_lt_d6
    _ ≤ ∑ i in Finset.range 7, (1.145 : ℝ) ^ i / i.factorial := hsum
    _ ≤ Real.exp 1.145 := hexp

lemma log_pi_le_two : Real.log π ≤ 2 := by
  have := log_pi_lt
  linarith

lemma Usum_le_partial_five : Usum ≤ -3.504 := by
  have h := Usum_le_partial 5
  have hval : ∑ n in Finset.range 5, uTerm n ≤ -3.504 := by
    simp only [Finset.sum_range_succ, Finset.sum_range_zero, uTerm]
    norm_num
  linarith

/-- Positivity of the density at the origin, with margin:
`a(0) = log π + γ - ψ(1/4) - γ ≥ 4`. -/
lemma a_xi_zero_ge : 4 ≤ a_xi 0 := by
  rw [a_xi_eq]
  have h1 : Vsum (π * 0) = 0 := by rw [mul_zero, Vsum_zero]
  rw [h1]
  have h2 := Usum_le_neg_three
  have h3 := Real.one_half_lt_eulerMascheroniConstant
  have h4 := one_lt_log_pi
  linarith

/-- Positivity of the density at `ξ = 1/2` (needed at the window boundary). -/
lemma a_xi_half_pos : 0 < a_xi (1 / 2) := by
  rw [a_xi_eq]
  have hs : (π * (1 / 2)) ^ 2 ≤ 2.4675 := by
    nlinarith [Real.pi_lt_d6, Real.pi_pos]
  have hV : Vsum (π * (1 / 2))
      ≤ (∑ n in Finset.range 10, vBound 2.4675 n) + 2.4675 / 90 := by
    have h1 := Vsum_le_partial_add_tail (π * (1 / 2)) 10 (by norm_num)
    have h2 : ∑ n in Finset.range 10, vTerm (π * (1 / 2)) n
        ≤ ∑ n in Finset.range 10, vBound 2.4675 n :=
      Finset.sum_le_sum (fun n _ => vTerm_le_vBound hs n)
    have h3 : (π * (1 / 2)) ^ 2 / ((10 : ℝ) * ((10 : ℝ) - 1)) ≤ 2.4675 / 90 := by
      rw [show ((10 : ℝ) * ((10 : ℝ) - 1)) = 90 by norm_num]
      exact (div_le_div_right (by norm_num : (0:ℝ) < 90)).mpr hs
    linarith
  have hpart : (∑ n in Finset.range 10, vBound 2.4675 n) ≤ 4.663 := by
    simp only [Finset.sum_range_succ, Finset.sum_range_zero, vBound]
    norm_num
  have h2 := Usum_le_partial_five
  have h3 := Real.one_half_lt_eulerMascheroniConstant
  have h4 := one_lt_log_pi
  linarith

/-- The density is provably negative at `ξ = 2`. -/
lemma a_xi_two_le : a_xi 2 ≤ -(1 / 10) := by
  rw [a_xi_eq]
  have hs : (39.478 : ℝ) ≤ (π * 2) ^ 2 := by
    nlinarith [Real.pi_gt_d6]
  have hV : (∑ n in Finset.range 8, vBound 39.478 n) ≤ Vsum (π * 2) :=
    le_trans (Finset.sum_le_sum fun n _ => vBound_le_vTerm (by norm_num) hs n)
      (partial_le_Vsum _ 8)
  have hpart : (5.813 : ℝ) ≤ ∑ n in Finset.range 8, vBound 39.478 n := by
    simp only [Finset.sum_range_succ, Finset.sum_range_zero, vBound]
    norm_num
  have h1 := Real.eulerMascheroniConstant_lt_two_thirds
  have h2 := log_pi_lt
  have h3 := neg_Usum_bound
  linarith

/-- Crude uniform magnitude bound for the density on `[-2, 2]`. -/
lemma abs_a_xi_le (x : ℝ) (hx : |x| ≤ 2) : |a_xi x| ≤ 100 := by
  rw [a_xi_eq, abs_le]
  obtain ⟨hx1, hx2⟩ := abs_le.mp hx
  have hx4 : x ^ 2 ≤ 4 := by nlinarith
  have hpi2 : π ^ 2 ≤ 10 := by nlinarith [Real.pi_lt_d6, Real.pi_pos]
  have hy2 : (π * x) ^ 2 ≤ 40 := by nlinarith [sq_nonneg x, sq_nonneg π, Real.pi_pos]
  have hVp := Vsum_le_poly (π * x)
  have hV0 := Vsum_nonneg (π * x)
  have h1 := one_lt_log_pi
  have h2 := log_pi_lt
  have h3 := Real.one_half_lt_eulerMascheroniConstant
  have h4 := Real.eulerMascheroniConstant_lt_two_thirds
  have h5 := Usum_le_neg_three
  have h6 := neg_Usum_bound
  constructor <;> nlinarith

/-! ## Evenness of density and window -/

lemma cTerm_conj (z : ℂ) (n : ℕ) :
    (starRingEnd ℂ) (cTerm z n) = cTerm ((starRingEnd ℂ) z) n := by
  rw [cTerm, cTerm, map_sub, map_inv₀, map_inv₀, map_add, map_add, map_natCast,
    map_one]

lemma digamma_conj (z : ℂ) :
    digamma ((starRingEnd ℂ) z) = (starRingEnd ℂ) (digamma z) := by
  rw [digamma, digamma, map_add, map_neg, Complex.conj_ofReal]
  congr 1
  calc tsum (fun n : ℕ => cTerm ((starRingEnd ℂ) z) n)
      = tsum (fun n : ℕ => (starRingEnd ℂ) (cTerm z n)) :=
        tsum_congr fun n => (cTerm_conj z n).symm
    _ = (starRingEnd ℂ) (tsum (fun n : ℕ => cTerm z n)) := by
        rw [starRingEnd_apply, tsum_star]
        exact tsum_congr fun n => by rw [starRingEnd_apply]

lemma a_xi_even (xi : ℝ) : a_xi (-xi) = a_xi xi := by
  rw [a_xi, a_xi]
  congr 1
  have harg : (1 / 4 + ((π * -xi : ℝ) : ℂ) * Complex.I)
      = (starRingEnd ℂ) (1 / 4 + ((π * xi : ℝ) : ℂ) * Complex.I) := by
    apply Complex.ext
    · simp
    · simp
  rw [harg, digamma_conj, Complex.conj_re]

lemma w_window_even (xi B t : ℝ) : w_window (-xi) B t = w_window xi B t := by
  unfold w_window
  rw [abs_neg, neg_sq]

/-! ## The periodization as a finite sum over `[-M, M]` -/

lemma foldl_add_eq_sum (f : ℤ → ℝ) (l : List ℤ) (c : ℝ) :
    l.foldl (fun acc m => acc + f m) c = c + (l.map f).sum := by
  induction l generalizing c with
  | nil => simp
  | cons x xs ih =>
    rw [List.foldl_cons, List.map_cons, List.sum_cons, ih, add_assoc]

lemma range_map_sum (g : ℕ → ℝ) (n : ℕ) :
    ((List.range n).map g).sum = ∑ i in Finset.range n, g i := by
  induction n with
  | zero => simp
  | succ n ih =>
    rw [List.range_succ, List.map_append, List.sum_append, Finset.sum_range_succ,
      ih]
    simp

lemma sum_Icc_eq_sum_range (F : ℤ → ℝ) (M : ℕ) :
    ∑ m in Finset.Icc (-(M : ℤ)) (M : ℤ), F m
      = ∑ i in Finset.range (2 * M + 1), F ((i : ℤ) - (M : ℤ)) := by
  have hset : Finset.Icc (-(M : ℤ)) (M : ℤ)
      = Finset.map ⟨fun i : ℕ => (i : ℤ) - (M : ℤ), fun a b hab => by
          have hab2 : (a : ℤ) - (M : ℤ) = (b : ℤ) - (M : ℤ) := hab
          omega⟩
          (Finset.range (2 * M + 1)) := by
    ext x
    simp only [Finset.mem_Icc, Finset.mem_map, Finset.mem_range,
      Function.Embedding.coeFn_mk]
    constructor
    · intro hx
      exact ⟨(x + M).toNat, by omega, by omega⟩
    · intro ⟨i, hi, hix⟩
      omega
  rw [hset, Finset.sum_map]
  rfl

/-- The folded loop of `P_A_symbol` equals `2π` times the finite sum of the
periodization terms over `m ∈ [-M, M]`. -/
lemma P_A_symbol_eq_finset_sum (theta B t : ℝ) (M : ℕ) :
    P_A_symbol theta M B t
      = 2 * π * ∑ m in Finset.Icc (-(M : ℤ)) (M : ℤ),
          a_xi (theta + (m : ℝ)) * w_window (theta + (m : ℝ)) B t := by
  rw [P_A_symbol, foldl_add_eq_sum, zero_add, List.map_map,
    range_map_sum (P_term B t theta ∘ fun i : ℕ => (i : ℤ) - (M : ℤ))
      (2 * M + 1),
    sum_Icc_eq_sum_range
      (fun m => a_xi (theta + (m : ℝ)) * w_window (theta + (m : ℝ)) B t) M]
  rfl

lemma P_A_symbol_even (theta B t : ℝ) (M : ℕ) :
    P_A_symbol (-theta) M B t = P_A_symbol theta M B t := by
  rw [P_A_symbol_eq_finset_sum, P_A_symbol_eq_finset_sum]
  congr 1
  apply Finset.sum_equiv (Equiv.neg ℤ)
  · intro m
    simp only [Finset.mem_Icc, Equiv.neg_apply]
    omega
  · intro m _
    have h1 : -theta + (m : ℝ) = -(theta - (m : ℝ)) := by ring
    have h2 : theta + ((Equiv.neg ℤ m : ℤ) : ℝ) = theta - (m : ℝ) := by
      simp only [Equiv.neg_apply]
      push_cast
      ring
    rw [h1, h2, a_xi_even, w_window_even]

/-! ## Truncation and shift invariance of the periodization -/

lemma term_eq_zero_of_far (theta B t : ℝ) (hB : 0 < B) (m : ℤ)
    (h : B + |theta| ≤ |(m : ℝ)|) :
    a_xi (theta + (m : ℝ)) * w_window (theta + (m : ℝ)) B t = 0 := by
  have habs : B ≤ |theta + (m : ℝ)| := by
    have h1 := abs_sub_abs_le_abs_sub ((m : ℝ)) (-theta)
    rw [abs_neg, sub_neg_eq_add] at h1
    have h2 : (m : ℝ) + theta = theta + (m : ℝ) := by ring
    rw [h2] at h1
    have h0 := abs_nonneg theta
    linarith
  rw [w_window_eq_zero _ _ _ hB habs, mul_zero]

lemma P_A_symbol_truncate (theta B t : ℝ) (hB : 0 < B) (M M' : ℕ)
    (h : B + |theta| ≤ (M : ℝ) + 1) (hMM : M ≤ M') :
    P_A_symbol theta M' B t = P_A_symbol theta M B t := by
  rw [P_A_symbol_eq_finset_sum, P_A_symbol_eq_finset_sum]
  congr 1
  symm
  apply Finset.sum_subset
  · apply Finset.Icc_subset_Icc
    · omega
    · omega
  · intro x hx hnx
    apply term_eq_zero_of_far theta B t hB x
    simp only [Finset.mem_Icc] at hx hnx
    have hxz : (M : ℤ) + 1 ≤ |x| := by
      rw [not_and_or, not_le, not_le] at hnx
      rcases hnx with h1 | h1
      · exact le_abs.mpr (Or.inr (by omega))
      · exact le_abs.mpr (Or.inl (by omega))
    have hcast : ((M : ℝ)) + 1 ≤ |(x : ℝ)| := by
      rw [← Int.cast_abs]
      exact_mod_cast hxz
    linarith

/-- Shift invariance: translating `θ` by an integer `k` does not change the
truncated periodization as long as the truncation still covers the window
support, i.e. `B + |θ| + |k| ≤ M + 1`. -/
lemma P_A_symbol_shift (theta : ℝ) (k : ℤ) (M : ℕ) (B t : ℝ) (hB : 0 < B)
    (h : B + |theta| + |(k : ℝ)| ≤ (M : ℝ) + 1) :
    P_A_symbol (theta + (k : ℝ)) M B t = P_A_symbol theta M B t := by
  rw [P_A_symbol_eq_finset_sum, P_A_symbol_eq_finset_sum]
  congr 1
  have habsk : |(k : ℝ)| = ((|k| : ℤ) : ℝ) := (Int.cast_abs).symm
  have hstep1 : ∑ m in Finset.Icc (-(M : ℤ)) (M : ℤ),
      a_xi (theta + (k : ℝ) + (m : ℝ)) * w_window (theta + (k : ℝ) + (m : ℝ)) B t
      = ∑ m in Finset.Icc (-(M : ℤ) + k) ((M : ℤ) + k),
          a_xi (theta + (m : ℝ)) * w_window (theta + (m : ℝ)) B t := by
    rw [← Finset.map_add_right_Icc, Finset.sum_map]
    apply Finset.sum_congr rfl
    intro i _
    have hemb : (addRightEmbedding k) i = i + k := rfl
    rw [hemb]
    have harg : theta + ((i + k : ℤ) : ℝ) = theta + (k : ℝ) + (i : ℝ) := by
      push_cast
      ring
    rw [harg]
  rw [hstep1]
  have hzero : ∀ x : ℤ, (M : ℤ) + 1 - |k| ≤ |x| →
      a_xi (theta + (x : ℝ)) * w_window (theta + (x : ℝ)) B t = 0 := by
    intro x hx
    apply term_eq_zero_of_far theta B t hB x
    have hcast : ((M : ℝ)) + 1 - ((|k| : ℤ) : ℝ) ≤ |(x : ℝ)| := by
      rw [← Int.cast_abs]
      exact_mod_cast hx
    rw [habsk] at h
    linarith
  have hsub1 : Finset.Icc (-(M : ℤ) + k) ((M : ℤ) + k)
      ⊆ Finset.Icc (-(M : ℤ) - |k|) ((M : ℤ) + |k|) :=
    Finset.Icc_subset_Icc (by linarith [neg_abs_le k]) (by linarith [le_abs_self k])
  have hsub2 : Finset.Icc (-(M : ℤ)) (M : ℤ)
      ⊆ Finset.Icc (-(M : ℤ) - |k|) ((M : ℤ) + |k|) :=
    Finset.Icc_subset_Icc (by linarith [abs_nonneg k]) (by linarith [abs_nonneg k])
  rw [Finset.sum_subset hsub1 ?h1, Finset.sum_subset hsub2 ?h2]
  case h1 =>
    intro x hx hnx
    apply hzero
    simp only [Finset.mem_Icc] at hx hnx
    rw [not_and_or, not_le, not_le] at hnx
    have habs2 := abs_sub_abs_le_abs_sub (x - k) (-k)
    rw [abs_neg, sub_neg_eq_add, sub_add_cancel] at habs2
    have hxk : (M : ℤ) + 1 ≤ |x - k| := by
      rcases hnx with h1 | h1
      · exact le_abs.mpr (Or.inr (by omega))
      · exact le_abs.mpr (Or.inl (by omega))
    linarith
  case h2 =>
    intro x hx hnx
    apply hzero
    simp only [Finset.mem_Icc] at hx hnx
    rw [not_and_or, not_le, not_le] at hnx
    have hxk : (M : ℤ) + 1 ≤ |x| := by
      rcases hnx with h1 | h1
      · exact le_abs.mpr (Or.inr (by omega))
      · exact le_abs.mpr (Or.inl (by omega))
    linarith [abs_nonneg k]

/-! ## Facts about the numpy minimum and argmin models -/

lemma foldl_min_le_init (l : List ℝ) (a : ℝ) : l.foldl min a ≤ a := by
  induction l generalizing a with
  | nil => simp
  | cons x xs ih =>
    rw [List.foldl_cons]
    exact le_trans (ih (min a x)) (min_le_left a x)

lemma foldl_min_le_mem (l : List ℝ) (a : ℝ) : ∀ v ∈ l, l.foldl min a ≤ v := by
  induction l generalizing a with
  | nil =>
    intro v hv
    cases hv
  | cons x xs ih =>
    intro v hv
    rw [List.foldl_cons]
    rcases List.mem_cons.mp hv with rfl | hv2
    · exact le_trans (foldl_min_le_init xs (min a v)) (min_le_right a v)
    · exact ih (min a x) v hv2

lemma foldl_min_mem (l : List ℝ) (a : ℝ) :
    l.foldl min a = a ∨ l.foldl min a ∈ l := by
  induction l generalizing a with
  | nil => exact Or.inl rfl
  | cons x xs ih =>
    rw [List.foldl_cons]
    rcases ih (min a x) with h | h
    · rcases le_total a x with hax | hax
      · exact Or.inl (by rw [h, min_eq_left hax])
      · refine Or.inr ?_
        rw [h, min_eq_right hax]
        exact List.mem_cons_self x xs
    · exact Or.inr (List.mem_cons_of_mem x h)

lemma npMin_le (l : List ℝ) (v : ℝ) (hv : v ∈ l) : npMin l ≤ v := by
  cases l with
  | nil => cases hv
  | cons x xs =>
    show xs.foldl min x ≤ v
    rcases List.mem_cons.mp hv with rfl | hv2
    · exact foldl_min_le_init xs v
    · exact foldl_min_le_mem xs x v hv2

lemma npMin_mem (l : List ℝ) (hl : l ≠ []) : npMin l ∈ l := by
  cases l with
  | nil => exact absurd rfl hl
  | cons x xs =>
    show xs.foldl min x ∈ x :: xs
    rcases foldl_min_mem xs x with h | h
    · rw [h]
      exact List.mem_cons_self x xs
    · exact List.mem_cons_of_mem x h

/-- Specification of the argmin scan: either no element beats the incumbent
(and the incumbent index is returned), or the first strictly-smaller running
minimum is located, and it is the overall minimum, first-occurrence. -/
lemma npArgminGo_spec (vs : List ℝ) : ∀ best : ℝ, ∀ b c : ℕ,
    (npArgminGo best b c vs = b ∧ vs.foldl min best = best)
    ∨ (∃ j, j < vs.length ∧ npArgminGo best b c vs = c + j
        ∧ vs.getD j 0 = vs.foldl min best
        ∧ vs.foldl min best < best
        ∧ ∀ i < j, vs.foldl min best < vs.getD i 0) := by
  induction vs with
  | nil =>
    intro best b c
    exact Or.inl ⟨rfl, rfl⟩
  | cons v vs ih =>
    intro best b c
    by_cases hv : v < best
    · have hgo : npArgminGo best b c (v :: vs) = npArgminGo v c (c + 1) vs := by
        rw [npArgminGo, if_pos hv]
      have hfold : (v :: vs).foldl min best = vs.foldl min v := by
        rw [List.foldl_cons, min_eq_right hv.le]
      rcases ih v c (c + 1) with ⟨h1, h2⟩ | ⟨j, hj, h1, h2, h3, h4⟩
      · refine Or.inr ⟨0, by simp, ?_, ?_, ?_, ?_⟩
        · rw [hgo, h1]
          omega
        · rw [hfold, h2, List.getD_cons_zero]
        · rw [hfold, h2]
          exact hv
        · intro i hi
          exact absurd hi (Nat.not_lt_zero i)
      · refine Or.inr ⟨j + 1, by simpa using hj, ?_, ?_, ?_, ?_⟩
        · rw [hgo, h1]
          omega
        · rw [hfold, ← h2, List.getD_cons_succ]
        · rw [hfold]
          exact h3.trans hv
        · intro i hi
          cases i with
          | zero =>
            rw [List.getD_cons_zero, hfold]
            exact h3
          | succ i2 =>
            rw [List.getD_cons_succ, hfold]
            exact h4 i2 (by omega)
    · have hgo : npArgminGo best b c (v :: vs) = npArgminGo best b (c + 1) vs := by
        rw [npArgminGo, if_neg hv]
      have hfold : (v :: vs).foldl min best = vs.foldl min best := by
        rw [List.foldl_cons, min_eq_left (not_lt.mp hv)]
      rcases ih best b (c + 1) with ⟨h1, h2⟩ | ⟨j, hj, h1, h2, h3, h4⟩
      · exact Or.inl ⟨by rw [hgo, h1], by rw [hfold, h2]⟩
      · refine Or.inr ⟨j + 1, by simpa using hj, ?_, ?_, ?_, ?_⟩
        · rw [hgo, h1]
          omega
        · rw [hfold, ← h2, List.getD_cons_succ]
        · rw [hfold]
          exact h3
        · intro i hi
          cases i with
          | zero =>
            rw [List.getD_cons_zero, hfold]
            exact lt_of_lt_of_le h3 (not_lt.mp hv)
          | succ i2 =>
            rw [List.getD_cons_succ, hfold]
            exact h4 i2 (by omega)

/-- The argmin model returns an in-range index of a first occurrence of the
minimum value. -/
lemma npArgmin_spec (l : List ℝ) (hl : l ≠ []) :
    npArgmin l < l.length
    ∧ l.getD (npArgmin l) 0 = npMin l
    ∧ ∀ i < npArgmin l, npMin l < l.getD i 0 := by
  cases l with
  | nil => exact absurd rfl hl
  | cons x xs =>
    have hgo : npArgmin (x :: xs) = npArgminGo x 0 1 xs := rfl
    have hmin : npMin (x :: xs) = xs.foldl min x := rfl
    rcases npArgminGo_spec xs x 0 1 with ⟨h1, h2⟩ | ⟨j, hj, h1, h2, h3, h4⟩
    · refine ⟨?_, ?_, ?_⟩
      · rw [hgo, h1]
        simp
      · rw [hgo, h1, hmin, h2, List.getD_cons_zero]
      · intro i hi
        rw [hgo, h1] at hi
        exact absurd hi (Nat.not_lt_zero i)
    · refine ⟨?_, ?_, ?_⟩
      · rw [hgo, h1, List.length_cons]
        omega
      · rw [hgo, h1, hmin, ← h2, Nat.add_comm 1 j, List.getD_cons_succ]
      · intro i hi
        rw [hgo, h1] at hi
        cases i with
        | zero =>
          rw [List.getD_cons_zero, hmin]
          exact h3
        | succ i2 =>
          rw [List.getD_cons_succ, hmin]
          exact h4 i2 (by omega)

/-! ## Grid facts -/

lemma linspace_length (a b : ℝ) (n : ℕ) : (linspace a b n).length = n := by
  rw [linspace, List.length_map, List.length_range]

lemma linspace_getD (a b : ℝ) (n i : ℕ) (hi : i < n) :
    (linspace a b n).getD i 0 = a + (i : ℝ) * ((b - a) / ((n : ℝ) - 1)) := by
  rw [linspace]
  have hlen : i < ((List.range n).map
      (fun j : ℕ => a + (j : ℝ) * ((b - a) / ((n : ℝ) - 1)))).length := by
    rw [List.length_map, List.length_range]
    exact hi
  rw [List.getD_eq_getElem _ _ hlen, List.getElem_map, List.getElem_range]

/-- Every point of the `N`-point grid lies on the `(2N-1)`-point grid: the
latter is the nested dyadic refinement of the former. -/
lemma linspace_mem_refine (a b : ℝ) (N : ℕ) (hN : 2 ≤ N) (x : ℝ)
    (hx : x ∈ linspace a b N) : x ∈ linspace a b (2 * N - 1) := by
  rw [linspace] at hx ⊢
  obtain ⟨i, hi, rfl⟩ := List.mem_map.mp hx
  rw [List.mem_range] at hi
  refine List.mem_map.mpr ⟨2 * i, List.mem_range.mpr (by omega), ?_⟩
  have hc : ((2 * N - 1 : ℕ) : ℝ) = 2 * (N : ℝ) - 1 := by
    have h1 : (1 : ℕ) ≤ 2 * N := by omega
    push_cast [Nat.cast_sub h1]
    ring
  have hN1 : ((N : ℝ) - 1) ≠ 0 := by
    have : (2:ℝ) ≤ (N : ℝ) := by exact_mod_cast hN
    intro hcon
    nlinarith
  rw [hc]
  have h2 : (2 * (N : ℝ) - 1) - 1 = 2 * ((N : ℝ) - 1) := by ring
  rw [h2]
  push_cast
  field_simp
  ring

/-! ## Claim theorems -/

/-- C1: for every torus coordinate `θ ∈ [-0.5, 0.5]`, window parameters
`B > 0` and `t > 0`, and truncation order `M ≥ 1`, the symbol evaluator
returns `P(θ) = 2π · Σ_{m=-M}^{M} a(θ+m)·w(θ+m)`; by definition
`P_A_symbol` accumulates the sum term by term as a left fold in ascending
order of `m` from `-M` to `M`, exactly as the source loop does. -/
theorem P_A_symbol_contract (theta B t : ℝ) (M : ℕ)
    (hθ : theta ∈ Set.Icc (-0.5 : ℝ) 0.5) (hB : 0 < B) (ht : 0 < t)
    (hM : 1 ≤ M) :
    P_A_symbol theta M B t
      = 2 * π * ∑ m in Finset.Icc (-(M : ℤ)) (M : ℤ),
          a_xi (theta + (m : ℝ)) * w_window (theta + (m : ℝ)) B t :=
  P_A_symbol_eq_finset_sum theta B t M

theorem P_A_symbol_contract_witness :
    (0 : ℝ) ∈ Set.Icc (-0.5 : ℝ) 0.5 ∧ (0:ℝ) < 3 ∧ (0:ℝ) < 0.06 ∧ 1 ≤ 1 ∧
    P_A_symbol 0 1 3 0.06
      = 2 * π * ∑ m in Finset.Icc (-((1 : ℕ) : ℤ)) ((1 : ℕ) : ℤ),
          a_xi ((0:ℝ) + (m : ℝ)) * w_window ((0:ℝ) + (m : ℝ)) 3 0.06 :=
  ⟨by constructor <;> norm_num, by norm_num, by norm_num, le_refl 1,
    P_A_symbol_contract 0 3 0.06 1 (by constructor <;> norm_num)
      (by norm_num) (by norm_num) (le_refl 1)⟩

/-- C2: for every grid size `N ≥ 1`, the gap verifier evaluates the symbol at
every point of the `N`-point uniform inclusive grid over `[-0.5, 0.5]`,
reports `min_symbol` equal to the minimum of those values (a member of the
list that bounds every value from below), `theta_min` equal to the first grid
point in ascending order attaining the minimum, and the margin
`actual_gap = min_symbol - C_STAR`. -/
theorem run_gap_visualization_spec (N M : ℕ) (B t : ℝ) (hN : 1 ≤ N) :
    (run_gap_visualization N M B t).thetas = linspace (-0.5) 0.5 N
    ∧ (run_gap_visualization N M B t).symbol_values
        = (linspace (-0.5) 0.5 N).map (fun th => P_A_symbol th M B t)
    ∧ (run_gap_visualization N M B t).min_symbol
        ∈ (run_gap_visualization N M B t).symbol_values
    ∧ (∀ v ∈ (run_gap_visualization N M B t).symbol_values,
        (run_gap_visualization N M B t).min_symbol ≤ v)
    ∧ (∃ i, i < N
        ∧ (run_gap_visualization N M B t).theta_min
            = (linspace (-0.5) 0.5 N).getD i 0
        ∧ (run_gap_visualization N M B t).symbol_values.getD i 0
            = (run_gap_visualization N M B t).min_symbol
        ∧ ∀ j < i, (run_gap_visualization N M B t).min_symbol
            < (run_gap_visualization N M B t).symbol_values.getD j 0)
    ∧ (run_gap_visualization N M B t).actual_gap
        = (run_gap_visualization N M B t).min_symbol - C_STAR
    ∧ (2 ≤ N → (linspace (-0.5) 0.5 N).getD 0 0 = -0.5
        ∧ (linspace (-0.5) 0.5 N).getD (N - 1) 0 = 0.5) := by
  have hlen : ((linspace (-0.5) 0.5 N).map
      (fun th => P_A_symbol th M B t)).length = N := by
    rw [List.length_map, linspace_length]
  have hne : ((linspace (-0.5) 0.5 N).map
      (fun th => P_A_symbol th M B t)) ≠ [] := by
    intro hcon
    rw [hcon] at hlen
    simp only [List.length_nil] at hlen
    omega
  obtain ⟨hi1, hi2, hi3⟩ := npArgmin_spec _ hne
  refine ⟨rfl, rfl, npMin_mem _ hne, fun v hv => npMin_le _ v hv,
    ⟨npArgmin ((linspace (-0.5) 0.5 N).map (fun th => P_A_symbol th M B t)),
      ?_, rfl, hi2, hi3⟩, rfl, ?_⟩
  · rw [hlen] at hi1
    exact hi1
  · intro hN2
    have hNr : (2:ℝ) ≤ (N : ℝ) := by exact_mod_cast hN2
    have hne1 : ((N : ℝ) - 1) ≠ 0 := by
      intro hcon
      nlinarith
    constructor
    · rw [linspace_getD _ _ _ 0 (by omega)]
      norm_num
    · rw [linspace_getD _ _ _ (N - 1) (by omega)]
      have hc : ((N - 1 : ℕ) : ℝ) = (N : ℝ) - 1 := by
        push_cast [Nat.cast_sub (by omega : 1 ≤ N)]
        ring
      rw [hc, show ((0.5:ℝ) - -0.5) = 1 by norm_num, mul_one_div,
        div_self hne1]
      norm_num

theorem run_gap_visualization_spec_witness :
    1 ≤ 2000 ∧
    (run_gap_visualization 2000 50 3 0.06).actual_gap
      = (run_gap_visualization 2000 50 3 0.06).min_symbol - C_STAR :=
  ⟨by norm_num,
    (run_gap_visualization_spec 2000 50 3 0.06 (by norm_num)).2.2.2.2.2.1⟩

/-- On a nonempty array `np.min` succeeds with the minimum. -/
lemma npMinE_of_ne_nil (l : List ℝ) (h : l ≠ []) :
    npMinE l = some (npMin l) := by
  cases l with
  | nil => exact absurd rfl h
  | cons x xs => rfl

/-- For every `N ≥ 1` the scan runs to completion whatever the remaining
parameters are: `np.min` succeeds, the error-path run returns exactly the
total run's record, the value list has `N` entries, the reported minimum is
one of them, and the margin is that minimum less the floor. -/
lemma run_gap_total (N M : ℕ) (B t : ℝ) (hN : 1 ≤ N) :
    run_gap_visualizationE N M B t = some (run_gap_visualization N M B t)
    ∧ (run_gap_visualization N M B t).symbol_values.length = N
    ∧ (run_gap_visualization N M B t).min_symbol
        ∈ (run_gap_visualization N M B t).symbol_values
    ∧ (run_gap_visualization N M B t).actual_gap
        = (run_gap_visualization N M B t).min_symbol - C_STAR := by
  have hlen : ((linspace (-0.5) 0.5 N).map
      (fun th => P_A_symbol th M B t)).length = N := by
    rw [List.length_map, linspace_length]
  have hne : ((linspace (-0.5) 0.5 N).map
      (fun th => P_A_symbol th M B t)) ≠ [] := by
    intro hcon
    rw [hcon] at hlen
    simp only [List.length_nil] at hlen
    omega
  refine ⟨?_, hlen, npMin_mem _ hne, rfl⟩
  unfold run_gap_visualizationE
  rw [npMinE_of_ne_nil _ hne]
  rfl

/-- C3 counterexample: nothing is rejected on non-positive parameters.
With `B = -1`, `t = -1`, `M = 0`, `N = 2` the window computes the value `1`
at the origin, and the scan — error path included — completes and returns
a result whose value list has its full two entries and whose reported
minimum is drawn from that list; no precondition failure occurs before or
during the computation. -/
theorem no_validation_cex :
    w_window 0 (-1) (-1) = 1
    ∧ run_gap_visualizationE 2 0 (-1) (-1)
        = some (run_gap_visualization 2 0 (-1) (-1))
    ∧ (run_gap_visualization 2 0 (-1) (-1)).symbol_values.length = 2
    ∧ (run_gap_visualization 2 0 (-1) (-1)).min_symbol
        ∈ (run_gap_visualization 2 0 (-1) (-1)).symbol_values :=
  ⟨w_window_at_zero (-1) (-1),
    (run_gap_total 2 0 (-1) (-1) (by norm_num)).1,
    (run_gap_total 2 0 (-1) (-1) (by norm_num)).2.1,
    (run_gap_total 2 0 (-1) (-1) (by norm_num)).2.2.1⟩

/-- C3 as amended: the program performs no parameter validation.  For every
`N ≥ 1` and arbitrary `M`, `B`, `t` — non-positive values included — the
scan runs to completion and returns a result: `np.min` succeeds, the value
list has `N` entries, the reported minimum is drawn from that list, and the
margin against the floor is formed.  The sole failure is at `N = 0`, where
`np.min` raises `ValueError` on the empty array regardless of the other
parameters — an unconditional crash inside the computation, not a
descriptive rejection of a non-positive parameter before it. -/
theorem no_validation (N M : ℕ) (B t : ℝ) (hN : 1 ≤ N) :
    (run_gap_visualizationE N M B t
        = some (run_gap_visualization N M B t)
      ∧ (run_gap_visualization N M B t).symbol_values.length = N
      ∧ (run_gap_visualization N M B t).min_symbol
          ∈ (run_gap_visualization N M B t).symbol_values
      ∧ (run_gap_visualization N M B t).actual_gap
          = (run_gap_visualization N M B t).min_symbol - C_STAR)
    ∧ run_gap_visualizationE 0 M B t = none :=
  ⟨run_gap_total N M B t hN, rfl⟩

theorem no_validation_witness :
    1 ≤ 1 ∧
    ((run_gap_visualizationE 1 0 (-1) (-1)
        = some (run_gap_visualization 1 0 (-1) (-1))
      ∧ (run_gap_visualization 1 0 (-1) (-1)).symbol_values.length = 1
      ∧ (run_gap_visualization 1 0 (-1) (-1)).min_symbol
          ∈ (run_gap_visualization 1 0 (-1) (-1)).symbol_values
      ∧ (run_gap_visualization 1 0 (-1) (-1)).actual_gap
          = (run_gap_visualization 1 0 (-1) (-1)).min_symbol - C_STAR)
    ∧ run_gap_visualizationE 0 0 (-1) (-1) = none) :=
  ⟨le_refl 1, no_validation 1 0 (-1) (-1) (le_refl 1)⟩

/-- C9: for every `B > 0` and `t > 0` the window satisfies
`0 ≤ w(ξ) ≤ 1`, with value `1` exactly at `ξ = 0`. -/
theorem w_window_range (xi B t : ℝ) (hB : 0 < B) (ht : 0 < t) :
    0 ≤ w_window xi B t ∧ w_window xi B t ≤ 1
    ∧ (w_window xi B t = 1 ↔ xi = 0) := by
  refine ⟨w_window_nonneg xi B t, w_window_le_one xi B t hB ht, ?_, ?_⟩
  · intro h1
    have hf1 : max 0 (1 - |xi| / B) ≤ 1 := by
      have h2 : 0 ≤ |xi| / B := by positivity
      have h3 : (1:ℝ) - |xi| / B ≤ 1 := by linarith
      simp [h3]
    have he1 : Real.exp (-4 * π ^ 2 * t * xi ^ 2) ≤ 1 := by
      rw [Real.exp_le_one_iff]
      have : (0:ℝ) ≤ 4 * π ^ 2 * t * xi ^ 2 := by positivity
      linarith
    have he0 : 0 < Real.exp (-4 * π ^ 2 * t * xi ^ 2) := Real.exp_pos _
    have hf0 : (0:ℝ) ≤ max 0 (1 - |xi| / B) := le_max_left _ _
    rw [w_window] at h1
    have hee : Real.exp (-4 * π ^ 2 * t * xi ^ 2) = 1 := by nlinarith
    rw [Real.exp_eq_one_iff] at hee
    have h4 : (0:ℝ) < 4 * π ^ 2 * t := by positivity
    have h5 : xi ^ 2 = 0 := by nlinarith [sq_nonneg xi]
    exact pow_eq_zero_iff (by norm_num) |>.mp h5
  · intro h
    rw [h, w_window_at_zero]

theorem w_window_range_witness :
    (0:ℝ) < 3 ∧ (0:ℝ) < 0.06 ∧ w_window 0 3 0.06 = 1 :=
  ⟨by norm_num, by norm_num,
    ((w_window_range 0 3 0.06 (by norm_num) (by norm_num)).2.2).mpr rfl⟩

/-- C10: the periodized symbol is an even function of `θ`: for every `θ`,
window parameters, and truncation order `M ≥ 1`,
`P_A_symbol(-θ) = P_A_symbol(θ)`, because the density and window are both
even and the summation range `[-M, M]` is symmetric about zero. -/
theorem P_A_symbol_even_claim (theta B t : ℝ) (M : ℕ) (hM : 1 ≤ M) :
    P_A_symbol (-theta) M B t = P_A_symbol theta M B t :=
  P_A_symbol_even theta B t M

theorem P_A_symbol_even_claim_witness :
    1 ≤ 1 ∧ P_A_symbol (-1) 1 3 0.06 = P_A_symbol 1 1 3 0.06 :=
  ⟨le_refl 1, P_A_symbol_even_claim 1 3 0.06 1 (le_refl 1)⟩

/-- C8: with bandwidth `B = 3`, for every `θ ∈ [-0.5, 0.5]` and any smoothing
time, every truncation order `M ≥ 4 = ⌈B⌉+1` yields exactly the same symbol
value as `M = 50`, and the `M = 100` and `M = 50` evaluations differ by less
than `10⁻⁹` (they are equal in exact arithmetic). -/
theorem truncation_convergence (theta t : ℝ) (M : ℕ)
    (hθ : theta ∈ Set.Icc (-0.5 : ℝ) 0.5) (hM : 4 ≤ M) :
    P_A_symbol theta M 3 t = P_A_symbol theta 50 3 t
    ∧ |P_A_symbol theta 100 3 t - P_A_symbol theta 50 3 t| < 1 / 10 ^ 9 := by
  rw [Set.mem_Icc] at hθ
  have habs : |theta| ≤ 1 / 2 := abs_le.mpr ⟨by linarith [hθ.1], by linarith [hθ.2]⟩
  have hcov : (3:ℝ) + |theta| ≤ ((4:ℕ) : ℝ) + 1 := by
    push_cast
    linarith
  have eM := P_A_symbol_truncate theta 3 t (by norm_num) 4 M hcov hM
  have e50 := P_A_symbol_truncate theta 3 t (by norm_num) 4 50 hcov (by norm_num)
  have e100 := P_A_symbol_truncate theta 3 t (by norm_num) 4 100 hcov (by norm_num)
  constructor
  · rw [eM, e50]
  · rw [e100, e50, sub_self, abs_zero]
    norm_num

theorem truncation_convergence_witness :
    (0:ℝ) ∈ Set.Icc (-0.5 : ℝ) 0.5 ∧ 4 ≤ 4 ∧
    |P_A_symbol 0 100 3 0.06 - P_A_symbol 0 50 3 0.06| < 1 / 10 ^ 9 :=
  ⟨by rw [Set.mem_Icc]; constructor <;> norm_num, le_refl 4,
    (truncation_convergence 0 0.06 4
      (by rw [Set.mem_Icc]; constructor <;> norm_num) (le_refl 4)).2⟩

/-- C7 as amended: periodicity of the truncated symbol holds exactly for
every integer shift the truncation covers: if `B + |θ| + |k| ≤ M + 1` then
`P_A_symbol(θ + k) = P_A_symbol(θ)`; in particular, with the source's
parameters, `P_A_symbol(0.5) = P_A_symbol(-0.5)`.  For shifts beyond the
truncation the values genuinely differ (see the counterexample). -/
theorem periodicity_amended (theta : ℝ) (k : ℤ) (M : ℕ) (B t : ℝ)
    (hB : 0 < B) (hcov : B + |theta| + |(k : ℝ)| ≤ (M : ℝ) + 1) :
    P_A_symbol (theta + (k : ℝ)) M B t = P_A_symbol theta M B t
    ∧ P_A_symbol 0.5 50 3 T_SYM = P_A_symbol (-0.5) 50 3 T_SYM := by
  constructor
  · exact P_A_symbol_shift theta k M B t hB hcov
  · have h1 : (3:ℝ) + |(-0.5:ℝ)| + |((1:ℤ) : ℝ)| ≤ ((50:ℕ) : ℝ) + 1 := by
      rw [abs_of_neg (by norm_num : (-0.5:ℝ) < 0)]
      push_cast
      norm_num
    have h2 := P_A_symbol_shift (-0.5) 1 50 3 T_SYM (by norm_num) h1
    have h3 : (-0.5:ℝ) + ((1:ℤ) : ℝ) = 0.5 := by norm_num
    rw [h3] at h2
    exact h2

theorem periodicity_amended_witness :
    (0:ℝ) < 3 ∧ ((3:ℝ) + |(-0.5:ℝ)| + |((1:ℤ) : ℝ)| ≤ ((50:ℕ) : ℝ) + 1)
    ∧ P_A_symbol ((-0.5:ℝ) + ((1:ℤ) : ℝ)) 50 3 T_SYM
        = P_A_symbol (-0.5) 50 3 T_SYM := by
  have h1 : (3:ℝ) + |(-0.5:ℝ)| + |((1:ℤ) : ℝ)| ≤ ((50:ℕ) : ℝ) + 1 := by
    rw [abs_of_neg (by norm_num : (-0.5:ℝ) < 0)]
    push_cast
    norm_num
  exact ⟨by norm_num, h1,
    (periodicity_amended (-0.5) 1 50 3 T_SYM (by norm_num) h1).1⟩

/-- C7 counterexample: the claim fails for arbitrary integer shifts.  With
the spec-valid parameters `M = 2`, `B = 1/2`, `t = 0.06`, the evaluator gives
`P(0 + 3) = 0` while `P(0) > 6`: a truncated periodization is not periodic
under shifts that move the window support out of the summation range. -/
theorem periodicity_cex :
    P_A_symbol ((0:ℝ) + ((3:ℤ) : ℝ)) 2 (1/2) T_SYM = 0
    ∧ 6 < P_A_symbol 0 2 (1/2) T_SYM := by
  constructor
  · have h3 : ((0:ℝ) + ((3:ℤ) : ℝ)) = 3 := by norm_num
    rw [h3, P_A_symbol_eq_finset_sum]
    have hz : ∀ m ∈ Finset.Icc (-((2:ℕ) : ℤ)) ((2:ℕ) : ℤ),
        a_xi ((3:ℝ) + (m : ℝ)) * w_window ((3:ℝ) + (m : ℝ)) (1/2) T_SYM = 0 := by
      intro m hm
      rw [Finset.mem_Icc] at hm
      have hmr : (-2:ℝ) ≤ (m : ℝ) := by exact_mod_cast hm.1
      have habs : (1/2 : ℝ) ≤ |3 + (m : ℝ)| := by
        calc (1/2:ℝ) ≤ 3 + (m : ℝ) := by linarith
          _ ≤ |3 + (m : ℝ)| := le_abs_self _
      rw [w_window_eq_zero _ _ _ (by norm_num) habs, mul_zero]
    rw [Finset.sum_eq_zero hz, mul_zero]
  · rw [P_A_symbol_eq_finset_sum]
    have hmem : (0:ℤ) ∈ Finset.Icc (-((2:ℕ) : ℤ)) ((2:ℕ) : ℤ) := by
      rw [Finset.mem_Icc]
      constructor <;> norm_num
    have hz : ∀ b ∈ Finset.Icc (-((2:ℕ) : ℤ)) ((2:ℕ) : ℤ), b ≠ 0 →
        a_xi ((0:ℝ) + (b : ℝ)) * w_window ((0:ℝ) + (b : ℝ)) (1/2) T_SYM = 0 := by
      intro b hb hb0
      rw [Finset.mem_Icc] at hb
      have hbz : (1:ℤ) ≤ |b| := by
        rcases lt_or_gt_of_ne hb0 with h | h
        · exact le_abs.mpr (Or.inr (by omega))
        · exact le_abs.mpr (Or.inl (by omega))
      have hbr : (1:ℝ) ≤ |(b : ℝ)| := by
        rw [← Int.cast_abs]
        exact_mod_cast hbz
      have habs : (1/2 : ℝ) ≤ |(0:ℝ) + (b : ℝ)| := by
        rw [zero_add]
        linarith
      rw [w_window_eq_zero _ _ _ (by norm_num) habs, mul_zero]
    rw [Finset.sum_eq_single_of_mem 0 hmem hz]
    have h00 : ((0:ℝ) + ((0:ℤ) : ℝ)) = 0 := by norm_num
    rw [h00, w_window_at_zero, mul_one]
    nlinarith [Real.pi_gt_three, a_xi_zero_ge,
      mul_nonneg (sub_nonneg.mpr Real.pi_gt_three.le)
        (sub_nonneg.mpr a_xi_zero_ge)]

/-- C6 as amended: translates with `|m| ≥ B + 1/2` contribute exactly zero
for every `θ` in the fundamental domain (since then `|θ + m| ≥ B` and the
window vanishes identically outside `(-B, B)`); the window support property
itself holds as stated. -/
theorem window_support_skip (B t theta : ℝ) (m : ℤ) (hB : 0 < B) (ht : 0 < t)
    (hθ : theta ∈ Set.Icc (-0.5 : ℝ) 0.5) (hm : B + 1 / 2 ≤ |(m : ℝ)|) :
    a_xi (theta + (m : ℝ)) * w_window (theta + (m : ℝ)) B t = 0
    ∧ ∀ ξ : ℝ, B ≤ |ξ| → w_window ξ B t = 0 := by
  constructor
  · apply term_eq_zero_of_far theta B t hB m
    rw [Set.mem_Icc] at hθ
    have habs : |theta| ≤ 1 / 2 :=
      abs_le.mpr ⟨by linarith [hθ.1], by linarith [hθ.2]⟩
    linarith
  · intro ξ hξ
    exact w_window_eq_zero ξ B t hB hξ

theorem window_support_skip_witness :
    (0:ℝ) < 3 ∧ (0:ℝ) < 0.06 ∧ (0:ℝ) ∈ Set.Icc (-0.5 : ℝ) 0.5
    ∧ ((3:ℝ) + 1 / 2 ≤ |((4:ℤ) : ℝ)|)
    ∧ a_xi ((0:ℝ) + ((4:ℤ) : ℝ)) * w_window ((0:ℝ) + ((4:ℤ) : ℝ)) 3 0.06 = 0 := by
  have hm : (3:ℝ) + 1 / 2 ≤ |((4:ℤ) : ℝ)| := by
    rw [show ((4:ℤ) : ℝ) = 4 by norm_num, abs_of_pos (by norm_num : (0:ℝ) < 4)]
    norm_num
  exact ⟨by norm_num, by norm_num,
    by rw [Set.mem_Icc]; constructor <;> norm_num, hm,
    (window_support_skip 3 0.06 0 4 (by norm_num) (by norm_num)
      (by rw [Set.mem_Icc]; constructor <;> norm_num) hm).1⟩

/-- C6 counterexample: the claim as stated fails for non-integer bandwidths
with fractional part above `1/2`.  With `B = 3/5`, `t = 0.06`, `θ = -1/2`,
`m = 1` we have `|m| > B`, yet the periodization term is strictly positive:
the shifted argument `1/2` still lies inside the window support. -/
theorem window_support_skip_cex :
    (0:ℝ) < 3 / 5 ∧ (0:ℝ) < T_SYM
    ∧ (-(1/2) : ℝ) ∈ Set.Icc (-0.5 : ℝ) 0.5
    ∧ (3 / 5 : ℝ) < |((1:ℤ) : ℝ)|
    ∧ a_xi (-(1/2) + ((1:ℤ) : ℝ))
        * w_window (-(1/2) + ((1:ℤ) : ℝ)) (3/5) T_SYM ≠ 0 := by
  refine ⟨by norm_num, by rw [T_SYM]; norm_num,
    by rw [Set.mem_Icc]; constructor <;> norm_num,
    by rw [show ((1:ℤ) : ℝ) = 1 by norm_num, abs_one]; norm_num, ?_⟩
  have harg : (-(1/2) : ℝ) + ((1:ℤ) : ℝ) = 1/2 := by norm_num
  rw [harg]
  apply ne_of_gt
  apply mul_pos a_xi_half_pos
  rw [w_window]
  apply mul_pos
  · have h16 : (0:ℝ) < 1 - |(1/2 : ℝ)| / (3/5) := by
      rw [abs_of_pos (by norm_num : (0:ℝ) < 1/2)]
      norm_num
    exact lt_max_of_lt_right h16
  · exact Real.exp_pos _

/-! ## Growth estimates for the heat factor at negative smoothing time

With `t = -1` the heat factor becomes `exp(4π²ξ²)`, which grows so fast
towards the window edge that the term at `ξ = 2` dominates every term with
`|ξ| ≤ 1.9`.  These estimates drive the grid-refinement counterexample. -/

lemma exp_gap_45000 :
    (45000:ℝ) ≤ Real.exp (4 * π ^ 2 * (39/100)) := by
  have h15 : (15:ℝ) ≤ 4 * π ^ 2 * (39/100) := by
    nlinarith [Real.pi_gt_d6]
  have h27 : (2.7:ℝ) ≤ Real.exp 1 := by
    linarith [Real.exp_one_gt_d9]
  calc (45000:ℝ) ≤ 2.7 ^ (15:ℕ) := by norm_num
    _ ≤ Real.exp 1 ^ (15:ℕ) := pow_le_pow_left (by norm_num) h27 15
    _ = Real.exp 15 := by
        rw [← Real.exp_nat_mul]
        norm_num
    _ ≤ Real.exp (4 * π ^ 2 * (39/100)) := Real.exp_le_exp.mpr h15

lemma exp_gap_72 :
    (189/44:ℝ) ≤ Real.exp (4 * π ^ 2 * (72/100)) := by
  have h2 : (2:ℝ) ≤ 4 * π ^ 2 * (72/100) := by
    nlinarith [Real.pi_gt_d6]
  have h27 : (2.7:ℝ) ≤ Real.exp 1 := by
    linarith [Real.exp_one_gt_d9]
  calc (189/44:ℝ) ≤ 2.7 ^ (2:ℕ) := by norm_num
    _ ≤ Real.exp 1 ^ (2:ℕ) := pow_le_pow_left (by norm_num) h27 2
    _ = Real.exp 2 := by
        rw [← Real.exp_nat_mul]
        norm_num
    _ ≤ Real.exp (4 * π ^ 2 * (72/100)) := Real.exp_le_exp.mpr h2

/-- Uniform bound on the inverted-time window over the arguments that occur
on the counterexample grids: every such window value is at most
`(44/189)·exp(4π²·3.61)`. -/
lemma w_le_uniform (x : ℝ)
    (h : (21/10:ℝ) ≤ |x| ∨ |x| ≤ 17/10
      ∨ ((17/10:ℝ) ≤ |x| ∧ |x| ≤ 19/10)) :
    w_window x (21/10) (-1) ≤ (44/189) * Real.exp (4 * π ^ 2 * (361/100)) := by
  have hEpos : (0:ℝ) < Real.exp (4 * π ^ 2 * (361/100)) := Real.exp_pos _
  rcases h with h | h | ⟨h1, h2⟩
  · rw [w_window_eq_zero _ _ _ (by norm_num) h]
    positivity
  · have hfe : max 0 (1 - |x| / (21/10)) ≤ 1 := by
      have h0 : (0:ℝ) ≤ |x| / (21/10) := by positivity
      exact max_le (by norm_num) (by linarith)
    have hx2 : x ^ 2 ≤ 289/100 := by
      nlinarith [sq_abs x, abs_nonneg x]
    have hexp1 : Real.exp (-4 * π ^ 2 * (-1) * x ^ 2)
        ≤ Real.exp (4 * π ^ 2 * (289/100)) := by
      apply Real.exp_le_exp.mpr
      nlinarith [sq_nonneg π]
    have hgap : Real.exp (4 * π ^ 2 * (289/100))
        ≤ (44/189) * Real.exp (4 * π ^ 2 * (361/100)) := by
      rw [show (4:ℝ) * π ^ 2 * (361/100)
          = 4 * π ^ 2 * (289/100) + 4 * π ^ 2 * (72/100) by ring,
        Real.exp_add]
      have h5 := exp_gap_72
      have hp := Real.exp_pos (4 * π ^ 2 * (289/100))
      nlinarith
    calc w_window x (21/10) (-1)
        ≤ 1 * Real.exp (-4 * π ^ 2 * (-1) * x ^ 2) := by
          rw [w_window]
          exact mul_le_mul_of_nonneg_right hfe (Real.exp_pos _).le
      _ = Real.exp (-4 * π ^ 2 * (-1) * x ^ 2) := one_mul _
      _ ≤ Real.exp (4 * π ^ 2 * (289/100)) := hexp1
      _ ≤ (44/189) * Real.exp (4 * π ^ 2 * (361/100)) := hgap
  · have hfe : max 0 (1 - |x| / (21/10)) ≤ 4/21 := by
      apply max_le (by norm_num)
      have : (17/10:ℝ) / (21/10) ≤ |x| / (21/10) :=
        (div_le_div_right (by norm_num : (0:ℝ) < 21/10)).mpr h1
      linarith
    have hx2 : x ^ 2 ≤ 361/100 := by
      nlinarith [sq_abs x, abs_nonneg x]
    have hexp1 : Real.exp (-4 * π ^ 2 * (-1) * x ^ 2)
        ≤ Real.exp (4 * π ^ 2 * (361/100)) := by
      apply Real.exp_le_exp.mpr
      nlinarith [sq_nonneg π]
    calc w_window x (21/10) (-1)
        ≤ (4/21) * Real.exp (-4 * π ^ 2 * (-1) * x ^ 2) := by
          rw [w_window]
          exact mul_le_mul_of_nonneg_right hfe (Real.exp_pos _).le
      _ ≤ (4/21) * Real.exp (4 * π ^ 2 * (361/100)) := by
          exact mul_le_mul_of_nonneg_left hexp1 (by norm_num)
      _ ≤ (44/189) * Real.exp (4 * π ^ 2 * (361/100)) := by
          nlinarith [hEpos]

/-- Lower bound on the inverted-time symbol at a point whose nine shifted
arguments all meet the uniform window estimate. -/
lemma Pf_lower (theta : ℝ)
    (hcond : ∀ m : ℤ, -4 ≤ m → m ≤ 4 →
      ((|theta + (m : ℝ)| ≤ 2) ∨ (21/10:ℝ) ≤ |theta + (m : ℝ)|)
      ∧ ((21/10:ℝ) ≤ |theta + (m : ℝ)| ∨ |theta + (m : ℝ)| ≤ 17/10
          ∨ ((17/10:ℝ) ≤ |theta + (m : ℝ)| ∧ |theta + (m : ℝ)| ≤ 19/10))) :
    2 * π * (-(4400/21) * Real.exp (4 * π ^ 2 * (361/100)))
      ≤ P_A_symbol theta 4 (21/10) (-1) := by
  rw [P_A_symbol_eq_finset_sum]
  apply mul_le_mul_of_nonneg_left ?_ (by positivity : (0:ℝ) ≤ 2 * π)
  have hcard : (Finset.Icc (-((4:ℕ) : ℤ)) ((4:ℕ) : ℤ)).card = 9 := by
    rw [Int.card_Icc]
    rfl
  calc -(4400/21) * Real.exp (4 * π ^ 2 * (361/100))
      = ∑ _m in Finset.Icc (-((4:ℕ) : ℤ)) ((4:ℕ) : ℤ),
          (-100 * ((44/189) * Real.exp (4 * π ^ 2 * (361/100)))) := by
        rw [Finset.sum_const, hcard, nsmul_eq_mul]
        push_cast
        ring
    _ ≤ ∑ m in Finset.Icc (-((4:ℕ) : ℤ)) ((4:ℕ) : ℤ),
          a_xi (theta + (m : ℝ)) * w_window (theta + (m : ℝ)) (21/10) (-1) := by
        apply Finset.sum_le_sum
        intro m hm
        rw [Finset.mem_Icc] at hm
        have hm1 : (-4:ℤ) ≤ m := by exact_mod_cast hm.1
        have hm2 : m ≤ 4 := by exact_mod_cast hm.2
        obtain ⟨hA, hB⟩ := hcond m hm1 hm2
        have hwu := w_le_uniform (theta + (m : ℝ)) hB
        have hwn := w_window_nonneg (theta + (m : ℝ)) (21/10) (-1)
        rcases hA with hA | hA
        · have ha := (abs_le.mp (abs_a_xi_le (theta + (m : ℝ)) hA)).1
          calc -100 * ((44/189) * Real.exp (4 * π ^ 2 * (361/100)))
              ≤ -100 * w_window (theta + (m : ℝ)) (21/10) (-1) :=
                mul_le_mul_of_nonpos_left hwu (by norm_num)
            _ ≤ a_xi (theta + (m : ℝ)) * w_window (theta + (m : ℝ)) (21/10) (-1) :=
                mul_le_mul_of_nonneg_right ha hwn
        · rw [w_window_eq_zero _ _ _ (by norm_num) hA, mul_zero]
          have := Real.exp_pos (4 * π ^ 2 * (361/100))
          nlinarith

lemma Pf_half_ge :
    2 * π * (-(4400/21) * Real.exp (4 * π ^ 2 * (361/100)))
      ≤ P_A_symbol (1/2) 4 (21/10) (-1) := by
  apply Pf_lower
  intro m h1 h2
  interval_cases m
  · exact ⟨Or.inr (le_abs.mpr (Or.inr (by norm_num))),
      Or.inl (le_abs.mpr (Or.inr (by norm_num)))⟩
  · exact ⟨Or.inr (le_abs.mpr (Or.inr (by norm_num))),
      Or.inl (le_abs.mpr (Or.inr (by norm_num)))⟩
  · exact ⟨Or.inl (abs_le.mpr ⟨by norm_num, by norm_num⟩),
      Or.inr (Or.inl (abs_le.mpr ⟨by norm_num, by norm_num⟩))⟩
  · exact ⟨Or.inl (abs_le.mpr ⟨by norm_num, by norm_num⟩),
      Or.inr (Or.inl (abs_le.mpr ⟨by norm_num, by norm_num⟩))⟩
  · exact ⟨Or.inl (abs_le.mpr ⟨by norm_num, by norm_num⟩),
      Or.inr (Or.inl (abs_le.mpr ⟨by norm_num, by norm_num⟩))⟩
  · exact ⟨Or.inl (abs_le.mpr ⟨by norm_num, by norm_num⟩),
      Or.inr (Or.inl (abs_le.mpr ⟨by norm_num, by norm_num⟩))⟩
  · exact ⟨Or.inr (le_abs.mpr (Or.inl (by norm_num))),
      Or.inl (le_abs.mpr (Or.inl (by norm_num)))⟩
  · exact ⟨Or.inr (le_abs.mpr (Or.inl (by norm_num))),
      Or.inl (le_abs.mpr (Or.inl (by norm_num)))⟩
  · exact ⟨Or.inr (le_abs.mpr (Or.inl (by norm_num))),
      Or.inl (le_abs.mpr (Or.inl (by norm_num)))⟩

lemma Pf_310_ge :
    2 * π * (-(4400/21) * Real.exp (4 * π ^ 2 * (361/100)))
      ≤ P_A_symbol (3/10) 4 (21/10) (-1) := by
  apply Pf_lower
  intro m h1 h2
  interval_cases m
  · exact ⟨Or.inr (le_abs.mpr (Or.inr (by norm_num))),
      Or.inl (le_abs.mpr (Or.inr (by norm_num)))⟩
  · exact ⟨Or.inr (le_abs.mpr (Or.inr (by norm_num))),
      Or.inl (le_abs.mpr (Or.inr (by norm_num)))⟩
  · exact ⟨Or.inl (abs_le.mpr ⟨by norm_num, by norm_num⟩),
      Or.inr (Or.inl (abs_le.mpr ⟨by norm_num, by norm_num⟩))⟩
  · exact ⟨Or.inl (abs_le.mpr ⟨by norm_num, by norm_num⟩),
      Or.inr (Or.inl (abs_le.mpr ⟨by norm_num, by norm_num⟩))⟩
  · exact ⟨Or.inl (abs_le.mpr ⟨by norm_num, by norm_num⟩),
      Or.inr (Or.inl (abs_le.mpr ⟨by norm_num, by norm_num⟩))⟩
  · exact ⟨Or.inl (abs_le.mpr ⟨by norm_num, by norm_num⟩),
      Or.inr (Or.inl (abs_le.mpr ⟨by norm_num, by norm_num⟩))⟩
  · exact ⟨Or.inr (le_abs.mpr (Or.inl (by norm_num))),
      Or.inl (le_abs.mpr (Or.inl (by norm_num)))⟩
  · exact ⟨Or.inr (le_abs.mpr (Or.inl (by norm_num))),
      Or.inl (le_abs.mpr (Or.inl (by norm_num)))⟩
  · exact ⟨Or.inr (le_abs.mpr (Or.inl (by norm_num))),
      Or.inl (le_abs.mpr (Or.inl (by norm_num)))⟩

lemma Pf_110_ge :
    2 * π * (-(4400/21) * Real.exp (4 * π ^ 2 * (361/100)))
      ≤ P_A_symbol (1/10) 4 (21/10) (-1) := by
  apply Pf_lower
  intro m h1 h2
  interval_cases m
  · exact ⟨Or.inr (le_abs.mpr (Or.inr (by norm_num))),
      Or.inl (le_abs.mpr (Or.inr (by norm_num)))⟩
  · exact ⟨Or.inr (le_abs.mpr (Or.inr (by norm_num))),
      Or.inl (le_abs.mpr (Or.inr (by norm_num)))⟩
  · exact ⟨Or.inl (abs_le.mpr ⟨by norm_num, by norm_num⟩),
      Or.inr (Or.inr ⟨le_abs.mpr (Or.inr (by norm_num)),
        abs_le.mpr ⟨by norm_num, by norm_num⟩⟩)⟩
  · exact ⟨Or.inl (abs_le.mpr ⟨by norm_num, by norm_num⟩),
      Or.inr (Or.inl (abs_le.mpr ⟨by norm_num, by norm_num⟩))⟩
  · exact ⟨Or.inl (abs_le.mpr ⟨by norm_num, by norm_num⟩),
      Or.inr (Or.inl (abs_le.mpr ⟨by norm_num, by norm_num⟩))⟩
  · exact ⟨Or.inl (abs_le.mpr ⟨by norm_num, by norm_num⟩),
      Or.inr (Or.inl (abs_le.mpr ⟨by norm_num, by norm_num⟩))⟩
  · exact ⟨Or.inr (le_abs.mpr (Or.inl (by norm_num))),
      Or.inl (le_abs.mpr (Or.inl (by norm_num)))⟩
  · exact ⟨Or.inr (le_abs.mpr (Or.inl (by norm_num))),
      Or.inl (le_abs.mpr (Or.inl (by norm_num)))⟩
  · exact ⟨Or.inr (le_abs.mpr (Or.inl (by norm_num))),
      Or.inl (le_abs.mpr (Or.inl (by norm_num)))⟩

/-- Exact value of the inverted-time window at `ξ = 2`. -/
lemma w_two_eq :
    w_window 2 (21/10) (-1) = (1/21) * Real.exp (4 * π ^ 2 * (4:ℝ)) := by
  rw [w_window, abs_of_pos (by norm_num : (0:ℝ) < 2),
    show (1:ℝ) - 2 / (21/10) = 1/21 by norm_num,
    max_eq_right (by norm_num : (0:ℝ) ≤ 1/21)]
  congr 1
  ring

/-- Strict upper bound at the coarse-grid midpoint: the dominant term
`2·a(2)·w(2)` is hugely negative, pushing `P(0)` strictly below the uniform
lower bound enjoyed by every fine-grid value. -/
lemma Pf0_lt :
    P_A_symbol 0 4 (21/10) (-1)
      < 2 * π * (-(4400/21) * Real.exp (4 * π ^ 2 * (361/100))) := by
  rw [P_A_symbol_eq_finset_sum]
  apply mul_lt_mul_of_pos_left ?_ (by positivity : (0:ℝ) < 2 * π)
  have hshrink : ∑ m in Finset.Icc (-((4:ℕ) : ℤ)) ((4:ℕ) : ℤ),
      a_xi ((0:ℝ) + (m : ℝ)) * w_window ((0:ℝ) + (m : ℝ)) (21/10) (-1)
      = ∑ m in Finset.Icc (-((2:ℕ) : ℤ)) ((2:ℕ) : ℤ),
          a_xi ((0:ℝ) + (m : ℝ)) * w_window ((0:ℝ) + (m : ℝ)) (21/10) (-1) := by
    symm
    apply Finset.sum_subset
    · apply Finset.Icc_subset_Icc <;> omega
    · intro x hx hnx
      rw [Finset.mem_Icc] at hx hnx
      have hxz : (3:ℤ) ≤ |x| := by
        rw [not_and_or, not_le, not_le] at hnx
        rcases hnx with h1 | h1
        · exact le_abs.mpr (Or.inr (by omega))
        · exact le_abs.mpr (Or.inl (by omega))
      have hcast : (3:ℝ) ≤ |(x : ℝ)| := by
        rw [← Int.cast_abs]
        exact_mod_cast hxz
      have habs : (21/10:ℝ) ≤ |(0:ℝ) + (x : ℝ)| := by
        rw [zero_add]
        linarith
      rw [w_window_eq_zero _ _ _ (by norm_num) habs, mul_zero]
  rw [hshrink, sum_Icc_eq_sum_range
    (fun m : ℤ => a_xi ((0:ℝ) + (m : ℝ)) * w_window ((0:ℝ) + (m : ℝ)) (21/10) (-1)) 2]
  simp only [Finset.sum_range_succ, Finset.sum_range_zero]
  push_cast
  norm_num
  have e2 : ((-2:ℝ)) = -(2:ℝ) := by norm_num
  have e1 : ((-1:ℝ)) = -(1:ℝ) := by norm_num
  rw [e2, e1, a_xi_even, a_xi_even, w_window_even, w_window_even,
    w_window_at_zero, mul_one]
  have hR1 : (1:ℝ) ≤ Real.exp (4 * π ^ 2 * (361/100)) := by
    rw [show (1:ℝ) = Real.exp 0 from (Real.exp_zero).symm]
    apply Real.exp_le_exp.mpr
    positivity
  have hRpos : (0:ℝ) < Real.exp (4 * π ^ 2 * (361/100)) := Real.exp_pos _
  have hw1n := w_window_nonneg 1 (21/10) (-1)
  have hw1u : w_window 1 (21/10) (-1)
      ≤ (44/189) * Real.exp (4 * π ^ 2 * (361/100)) :=
    w_le_uniform 1 (Or.inr (Or.inl (by rw [abs_one]; norm_num)))
  have ha0 : a_xi 0 ≤ 100 := (abs_le.mp (abs_a_xi_le 0 (by norm_num))).2
  have ha1u : a_xi 1 ≤ 100 :=
    (abs_le.mp (abs_a_xi_le 1 (by rw [abs_one]; norm_num))).2
  have ha2 := a_xi_two_le
  have hw2n := w_window_nonneg 2 (21/10) (-1)
  have hE4 : 45000 * Real.exp (4 * π ^ 2 * (361/100))
      ≤ Real.exp (4 * π ^ 2 * (4:ℝ)) := by
    rw [show (4:ℝ) * π ^ 2 * (4:ℝ)
        = 4 * π ^ 2 * (361/100) + 4 * π ^ 2 * (39/100) by ring,
      Real.exp_add]
    have h45 := exp_gap_45000
    nlinarith
  have hterm1 : a_xi 1 * w_window 1 (21/10) (-1)
      ≤ 100 * w_window 1 (21/10) (-1) :=
    mul_le_mul_of_nonneg_right ha1u hw1n
  have hterm2 : a_xi 2 * w_window 2 (21/10) (-1)
      ≤ -(1/10) * w_window 2 (21/10) (-1) :=
    mul_le_mul_of_nonneg_right ha2 hw2n
  have hw2eq := w_two_eq
  nlinarith [hterm1, hterm2, hw1u, hE4, hR1, hRpos, ha0, hw2eq]

/-- Structural fact about the scan: refining the `N`-point grid to the
nested `2N-1`-point grid (which contains every point of the `N`-point grid)
never increases the reported minimum, for all window parameters and
truncation orders.  The `2N`-point grid, by contrast, is not nested in the
`N`-point grid: only the endpoints are shared. -/
theorem nested_grid_refinement (N M : ℕ) (B t : ℝ) (hN : 2 ≤ N) :
    (run_gap_visualization (2 * N - 1) M B t).min_symbol
      ≤ (run_gap_visualization N M B t).min_symbol := by
  have hsub : ∀ v ∈ (linspace (-0.5) 0.5 N).map (fun th => P_A_symbol th M B t),
      v ∈ (linspace (-0.5) 0.5 (2 * N - 1)).map
        (fun th => P_A_symbol th M B t) := by
    intro v hv
    obtain ⟨θ, hθ, rfl⟩ := List.mem_map.mp hv
    exact List.mem_map.mpr ⟨θ, linspace_mem_refine (-0.5) 0.5 N hN θ hθ, rfl⟩
  have hne : (linspace (-0.5) 0.5 N).map (fun th => P_A_symbol th M B t) ≠ [] := by
    intro hcon
    have hl := congrArg List.length hcon
    rw [List.length_map, linspace_length, List.length_nil] at hl
    omega
  have hmem := npMin_mem _ hne
  exact npMin_le _ _ (hsub _ hmem)

theorem nested_grid_refinement_example :
    2 ≤ 2 ∧ (run_gap_visualization (2 * 2 - 1) 50 3 0.06).min_symbol
      ≤ (run_gap_visualization 2 50 3 0.06).min_symbol :=
  ⟨le_refl 2, nested_grid_refinement 2 50 3 0.06 (le_refl 2)⟩

/-- Outside the valid parameter domain the doubled grid can report a
strictly larger minimum.  With `B = 21/10`, the invalid smoothing time
`t = -1` (accepted by the code, which never validates parameters) and
truncation order `M = 4`, the 3-point grid contains `θ = 0`, where the
window's explosive heat factor exposes the hugely negative term
`2·a(2)·w(2)`, while the 6-point grid misses `θ = 0` entirely and its
minimum is far higher.  This shows no structural argument independent of
the window parameters' signs can make grid doubling monotone; within the
valid domain `B, t > 0` the question stays open here. -/
theorem grid_doubling_can_increase_min :
    (run_gap_visualization 3 4 (21/10) (-1)).min_symbol
      < (run_gap_visualization 6 4 (21/10) (-1)).min_symbol := by
  have h3 : linspace (-0.5) 0.5 3 = [-(1/2), 0, 1/2] := by
    rw [linspace, show List.range 3 = [0, 1, 2] from rfl]
    simp only [List.map_cons, List.map_nil, List.cons.injEq, and_true]
    norm_num
  have h6 : linspace (-0.5) 0.5 6
      = [-(1/2), -(3/10), -(1/10), 1/10, 3/10, 1/2] := by
    rw [linspace, show List.range 6 = [0, 1, 2, 3, 4, 5] from rfl]
    simp only [List.map_cons, List.map_nil, List.cons.injEq, and_true]
    norm_num
  have hcoarse : (run_gap_visualization 3 4 (21/10) (-1)).min_symbol
      ≤ P_A_symbol 0 4 (21/10) (-1) := by
    have hdef : (run_gap_visualization 3 4 (21/10) (-1)).min_symbol
        = npMin ((linspace (-0.5) 0.5 3).map
            (fun th => P_A_symbol th 4 (21/10) (-1))) := rfl
    rw [hdef, h3]
    apply npMin_le
    show P_A_symbol 0 4 (21/10) (-1) ∈
      [P_A_symbol (-(1/2)) 4 (21/10) (-1), P_A_symbol 0 4 (21/10) (-1),
        P_A_symbol (1/2) 4 (21/10) (-1)]
    exact List.mem_cons_of_mem _ (List.mem_cons_self _ _)
  have hfine : 2 * π * (-(4400/21) * Real.exp (4 * π ^ 2 * (361/100)))
      ≤ (run_gap_visualization 6 4 (21/10) (-1)).min_symbol := by
    have hdef : (run_gap_visualization 6 4 (21/10) (-1)).min_symbol
        = npMin ((linspace (-0.5) 0.5 6).map
            (fun th => P_A_symbol th 4 (21/10) (-1))) := rfl
    rw [hdef, h6]
    show 2 * π * (-(4400/21) * Real.exp (4 * π ^ 2 * (361/100)))
      ≤ npMin [P_A_symbol (-(1/2)) 4 (21/10) (-1),
          P_A_symbol (-(3/10)) 4 (21/10) (-1),
          P_A_symbol (-(1/10)) 4 (21/10) (-1),
          P_A_symbol (1/10) 4 (21/10) (-1),
          P_A_symbol (3/10) 4 (21/10) (-1),
          P_A_symbol (1/2) 4 (21/10) (-1)]
    have hmem := npMin_mem
      [P_A_symbol (-(1/2)) 4 (21/10) (-1),
        P_A_symbol (-(3/10)) 4 (21/10) (-1),
        P_A_symbol (-(1/10)) 4 (21/10) (-1),
        P_A_symbol (1/10) 4 (21/10) (-1),
        P_A_symbol (3/10) 4 (21/10) (-1),
        P_A_symbol (1/2) 4 (21/10) (-1)] (by simp)
    simp only [List.mem_cons, List.not_mem_nil, or_false] at hmem
    rcases hmem with he | he | he | he | he | he <;> rw [he]
    · rw [P_A_symbol_even]
      exact Pf_half_ge
    · rw [P_A_symbol_even]
      exact Pf_310_ge
    · rw [P_A_symbol_even]
      exact Pf_110_ge
    · exact Pf_110_ge
    · exact Pf_310_ge
    · exact Pf_half_ge
  linarith [Pf0_lt]

end
